import Mathlib

/-!
# jot: a verification development

Shallow embedding of the note client `jot` (Go) and theorems about it.

* `db.go`      : wire types, `execute` (request list, response handling),
                 `Add`, `Delete`, `parseNotes`
* `config.go`  : `LoadConfig`
* `display.go` : `DisplayList` (preview), `formatAge`, `plural`

Go strings are modelled by Lean `String` (valid UTF-8 text); where the source
works on bytes (`len`, slicing) the UTF-8 encoding is made explicit.
-/

namespace Jot

/-! ## Wire types (db.go, lines 12-72) -/

/-- A Go value of static type `any`, as the program sees it: the program only
ever builds such a value from a string (`stmtArg.Value`) or renders one through
`fmt.Sprintf("%v", v)` (`colVal.Value`).  JSON numbers and composite values are
kept by their `%v` rendering. -/
inductive AnyValue where
  | null : AnyValue
  | bool (b : Bool) : AnyValue
  | str (s : String) : AnyValue
  | number (rendering : String) : AnyValue
  | composite (rendering : String) : AnyValue
  deriving DecidableEq, Repr

/-- The text `fmt.Sprintf("%v", v)` for a value of type `any`. -/
def AnyValue.sprintV : AnyValue → String
  | .null => "<nil>"
  | .bool true => "true"
  | .bool false => "false"
  | .str s => s
  | .number r => r
  | .composite r => r

structure Note where
  ID : Int
  Body : String
  CreatedAt : String
  deriving DecidableEq, Repr

structure stmtArg where
  Type_ : String
  Value : AnyValue
  deriving DecidableEq, Repr

structure stmtBody where
  SQL : String
  Args : List stmtArg
  deriving DecidableEq, Repr

structure stmtRequest where
  Type_ : String
  Stmt : Option stmtBody
  deriving DecidableEq, Repr

structure colInfo where
  Name : String
  deriving DecidableEq, Repr

structure colVal where
  Type_ : String
  Value : AnyValue
  deriving DecidableEq, Repr

structure resultBody where
  Cols : List colInfo
  Rows : List (List colVal)
  AffectedRows : Int
  LastInsertID : String
  deriving DecidableEq, Repr

structure stmtResponse where
  Type_ : String
  Result : resultBody
  deriving DecidableEq, Repr

structure stmtError where
  Message : String
  deriving DecidableEq, Repr

structure stmtResult where
  Type_ : String
  Response : Option stmtResponse
  Error : Option stmtError
  deriving DecidableEq, Repr

structure pipelineResponse where
  Results : List stmtResult
  deriving DecidableEq, Repr

/-! ## `execute`: the request list (db.go, lines 91-95) -/

/-- The zero value of `stmtRequest`, as `make([]stmtRequest, n)` fills it. -/
def stmtRequest.zero : stmtRequest := ⟨"", none⟩

/-- The loop `for i := range stmts { reqs[i] = stmtRequest{"execute", &stmts[i]} }`
started at index `i` on the slice `reqs`. -/
def fillRequests : Nat → List stmtBody → List stmtRequest → List stmtRequest
  | _, [], reqs => reqs
  | i, s :: rest, reqs => fillRequests (i + 1) rest (reqs.set i ⟨"execute", some s⟩)

/-- The slice `reqs` that `execute` marshals: `make`, the loop, then
`append(reqs, stmtRequest{Type: "close"})`. -/
def buildRequests (stmts : List stmtBody) : List stmtRequest :=
  let reqs := List.replicate stmts.length stmtRequest.zero
  let reqs := fillRequests 0 stmts reqs
  reqs ++ [⟨"close", none⟩]

/-! ## `fmt` helpers -/

deriving instance DecidableEq for Except

/-- The text `fmt.Sprintf("%d", n)` for an integer: an optional minus sign and
the decimal digits. -/
def sprintD : Int → String
  | Int.ofNat m => String.mk (Nat.toDigits 10 m)
  | Int.negSucc m => String.mk ('-' :: Nat.toDigits 10 (m + 1))

/-! ## `execute`: response handling (db.go, lines 115-135)

The transport and `json.Unmarshal` are outside the program; the status code,
the raw body and the decoder are parameters.  A Go `error` is modelled by its
message. -/

/-- The error `fmt.Errorf("turso API error (%d): %s", resp.StatusCode, string(respBody))`. -/
def statusError (StatusCode : Int) (respBody : String) : String :=
  "turso API error (" ++ sprintD StatusCode ++ "): " ++ respBody

/-- The loop of lines 129-133: the first entry with `r.Type == "error" && r.Error != nil`
makes `execute` return `fmt.Errorf("SQL error: %s", r.Error.Message)`. -/
def scanResults : List stmtResult → Option String
  | [] => none
  | r :: rest =>
    match r.Type_ == "error", r.Error with
    | true, some e => some ("SQL error: " ++ e.Message)
    | _, _ => scanResults rest

/-- Lines 129-135 of `execute`, on the decoded response. -/
def checkResults (result : pipelineResponse) : Except String pipelineResponse :=
  match scanResults result.Results with
  | some err => .error err
  | none => .ok result

/-- Lines 120-135 of `execute`: what it returns for a received status code and body. -/
def executeResponse (unmarshal : String → Except String pipelineResponse)
    (StatusCode : Int) (respBody : String) : Except String pipelineResponse :=
  if StatusCode ≠ 200 then
    .error (statusError StatusCode respBody)
  else
    match unmarshal respBody with
    | .error err => .error ("parse response: " ++ err)
    | .ok result => checkResults result

/-! ## `Add` and `Delete` (db.go, lines 149-153 and 208-223) -/

/-- The statement list that `Add` hands to `execute`. -/
def addStmts (body : String) : List stmtBody :=
  [⟨"INSERT INTO notes (body) VALUES (?)", [⟨"text", .str body⟩]⟩]

/-- The statement list that `Delete` hands to `execute`. -/
def deleteStmts (id : Int) : List stmtBody :=
  [⟨"DELETE FROM notes WHERE id = ?", [⟨"integer", .str (sprintD id)⟩]⟩]

/-- The method `Delete`; `execute` stands for the round trip to the store. -/
def Delete (execute : List stmtBody → Except String pipelineResponse) (id : Int) :
    Except String Unit :=
  match execute (deleteStmts id) with
  | .error err => .error err
  | .ok resp =>
    match resp.Results with
    | [] => .ok ()
    | r :: _ =>
      match r.Response with
      | none => .ok ()
      | some rsp =>
        if rsp.Result.AffectedRows = 0 then
          .error ("note #" ++ sprintD id ++ " not found")
        else
          .ok ()

/-! ## `fmt.Sscanf(text, "%d", &id)` (Go standard library: fmt/scan.go, strconv/atoi.go)

The scanner reads the runes of the text one at a time; an error anywhere leaves
the destination untouched.  Errors are modelled by `none`. -/

/-- The rune limit `hugeWid = 1 << 30` of the scanner: `ReadRune` reports end of
input once that many runes have been consumed. -/
def hugeWid : Nat := 2 ^ 30

/-- The function `isSpace` of fmt/scan.go (its table `space`). -/
def isSpace (r : Char) : Bool :=
  let n := r.toNat
  (0x0009 ≤ n && n ≤ 0x000d) || n == 0x0020 || n == 0x0085 || n == 0x00a0 || n == 0x1680
    || (0x2000 ≤ n && n ≤ 0x200a) || (0x2028 ≤ n && n ≤ 0x2029) || n == 0x202f
    || n == 0x205f || n == 0x3000

/-- The method `SkipSpace` with `nlIsSpace = false` (the mode of `Sscanf`): returns
the remaining input, or `none` for the error "unexpected newline". -/
def SkipSpace : List Char → Option (List Char)
  | [] => some []
  | r :: rest =>
    if r = '\r' ∧ rest.head? = some '\n' then SkipSpace rest
    else if r = '\n' then none
    else if isSpace r then SkipSpace rest
    else some (r :: rest)

/-- The errors of strconv. -/
inductive NumError where
  | ErrSyntax : NumError
  | ErrRange : NumError
  deriving DecidableEq, Repr

def maxUint64 : Nat := 2 ^ 64 - 1

/-- The digit loop of `strconv.ParseUint(s, 10, 64)`, on the accumulator `n`. -/
def parseUintLoop : List Char → Nat → Nat × Option NumError
  | [], n => (n, none)
  | c :: cs, n =>
    if c.isDigit then
      let d := c.toNat - '0'.toNat
      if n ≥ maxUint64 / 10 + 1 then
        (maxUint64, some .ErrRange)
      else
        let n10 := n * 10
        let n1 := (n10 + d) % 2 ^ 64
        if n1 < n10 ∨ n1 > maxUint64 then
          (maxUint64, some .ErrRange)
        else
          parseUintLoop cs n1
    else
      (0, some .ErrSyntax)

/-- The function `strconv.ParseUint(s, 10, 64)`. -/
def ParseUint (s : List Char) : Nat × Option NumError :=
  match s with
  | [] => (0, some .ErrSyntax)
  | _ => parseUintLoop s 0

/-- The function `strconv.ParseInt(s, 10, 64)`. -/
def ParseInt (s : List Char) : Int × Option NumError :=
  match s with
  | [] => (0, some .ErrSyntax)
  | c :: rest =>
    let neg : Bool := c = '-'
    let digits := if c = '+' ∨ c = '-' then rest else s
    match ParseUint digits with
    | (_, some .ErrSyntax) => (0, some .ErrSyntax)
    | (un, _) =>
      let cutoff : Nat := 2 ^ 63
      if !neg ∧ un ≥ cutoff then
        (Int.ofNat (cutoff - 1), some .ErrRange)
      else if neg ∧ un > cutoff then
        (-Int.ofNat cutoff, some .ErrRange)
      else if neg then
        (-Int.ofNat un, none)
      else
        (Int.ofNat un, none)

/-- The method `scanInt('d', 64)`: skip spaces, require input, accept a sign,
require a digit, take the run of digits, convert the token with `ParseInt`. -/
def scanInt (input : List Char) : Option Int :=
  match SkipSpace input with
  | none => none
  | some [] => none
  | some (c :: rest) =>
    let tok : List Char := if c = '+' ∨ c = '-' then [c] else []
    let s1 := if c = '+' ∨ c = '-' then rest else c :: rest
    match s1 with
    | [] => none
    | d :: _ =>
      if d.isDigit then
        match ParseInt (tok ++ s1.takeWhile Char.isDigit) with
        | (i, none) => some i
        | (_, some _) => none
      else
        none

/-- The method `doScanf` for the format "%d" on the runes that the scanner can
see: it skips spaces and scans one integer; what follows the integer is not
looked at. -/
def scanRunes (input : List Char) : Option Int :=
  match SkipSpace input with
  | none => none
  | some s => scanInt s

/-- The call `fmt.Sscanf(str, "%d", &id)`: the scanner sees the first `hugeWid`
runes of `str`. -/
def Sscanf_d (str : String) : Option Int :=
  scanRunes (str.data.take hugeWid)

/-- The two lines `var id int64; fmt.Sscanf(text, "%d", &id)`: the value of `id`
afterwards (the error of `Sscanf` is dropped). -/
def scanId (text : String) : Int :=
  match Sscanf_d text with
  | some n => n
  | none => 0

/-! ## `parseNotes` (db.go, lines 225-249) -/

/-- The body of the loop of `parseNotes` on one row: `none` when `len(row) < 3`
(`continue`), otherwise the note that is appended. -/
def noteOfRow : List colVal → Option Note
  | c0 :: c1 :: c2 :: _ =>
    some ⟨scanId c0.Value.sprintV, c1.Value.sprintV, c2.Value.sprintV⟩
  | _ => none

/-- The loop `for _, row := range r.Response.Result.Rows` on the slice `notes`. -/
def parseRows : List (List colVal) → List Note → List Note
  | [], notes => notes
  | row :: rest, notes =>
    match noteOfRow row with
    | some note => parseRows rest (notes ++ [note])
    | none => parseRows rest notes

/-- The function `parseNotes`; `resp = none` is the nil pointer, and the result
`.error` stands for the run-time panic of `resp.Results[idx]` at a negative index. -/
def parseNotes (resp : Option pipelineResponse) (idx : Int) : Except String (List Note) :=
  match resp with
  | none => .ok []
  | some resp =>
    if idx ≥ resp.Results.length then .ok []
    else if idx < 0 then .error "index out of range"
    else
      match resp.Results[idx.toNat]? with
      | none => .ok []
      | some r =>
        match r.Response with
        | none => .ok []
        | some rsp => .ok (parseRows rsp.Result.Rows [])

/-! ## `LoadConfig` (config.go) -/

structure Config where
  URL : String
  Token : String
  deriving DecidableEq, Repr

/-- The function `strings.Index(s, substr)`: the position of the first occurrence of
`substr` in `s`, `none` standing for -1. -/
def Index : List Char → List Char → Option Nat
  | [], substr => if substr.isPrefixOf [] then some 0 else none
  | c :: cs, substr =>
    if substr.isPrefixOf (c :: cs) then some 0
    else (Index cs substr).map (· + 1)

/-- The call `strings.Replace(s, old, new, 1)` for a non-empty `old`: `s` itself when
`old == new` or `old` does not occur in `s`, otherwise
`s[:j] + new + s[j+len(old):]` with `j = Index(s, old)`. -/
def Replace1 (s old new : String) : String :=
  if old = new then s
  else
    match Index s.data old.data with
    | none => s
    | some j => String.mk (s.data.take j ++ new.data ++ s.data.drop (j + old.data.length))

/-- The function `LoadConfig`, on the values of the environment variables `JOT_URL`
and `JOT_TOKEN` (empty when unset). -/
def LoadConfig (JOT_URL JOT_TOKEN : String) : Except String Config :=
  if JOT_URL = "" ∨ JOT_TOKEN = "" then
    .error ("missing env vars — set:\n\n  export JOT_URL=\"https://your-db.turso.io\"\n"
      ++ "  export JOT_TOKEN=\"your-auth-token\"\n")
  else
    .ok ⟨Replace1 JOT_URL "libsql://" "https://", JOT_TOKEN⟩

/-! ## `DisplayList`: the preview (display.go, lines 9-23)

`len(body)` and `body[:n]` work on the bytes of the UTF-8 encoding of a Go string. -/

/-- The UTF-8 encoding of one rune. -/
def utf8Encode (c : Char) : List Nat :=
  let n := c.toNat
  if n < 0x80 then [n]
  else if n < 0x800 then [0xC0 + n / 64, 0x80 + n % 64]
  else if n < 0x10000 then [0xE0 + n / 4096, 0x80 + n / 64 % 64, 0x80 + n % 64]
  else [0xF0 + n / 262144, 0x80 + n / 4096 % 64, 0x80 + n / 64 % 64, 0x80 + n % 64]

/-- The bytes of a Go string holding the text `s`. -/
def bytes (s : String) : List Nat := s.data.flatMap utf8Encode

def maxPreviewLen : Nat := 72

/-- The lines 20-23 of `DisplayList` on the bytes of `n.Body`:
`if len(body) > maxPreviewLen { body = body[:maxPreviewLen-1] + "…" }`. -/
def preview (body : List Nat) : List Nat :=
  if body.length > maxPreviewLen then body.take (maxPreviewLen - 1) ++ bytes "…" else body

/-! ## float64 arithmetic (IEEE 754 binary64, round to nearest, ties to even)

A float64 value is modelled by the rational number it denotes; every operation
computes the exact result and rounds it to 53 significant bits.  The exponent
range, infinities and NaN are not modelled: no value of `formatAge` leaves the
normal range. -/

/-- Rounding of a rational to the nearest integer, ties to the even one. -/
def roundHalfEven (x : ℚ) : ℤ :=
  let f := ⌊x⌋
  let r := x - f
  if r < 1 / 2 then f
  else if 1 / 2 < r then f + 1
  else if f % 2 = 0 then f
  else f + 1

/-- Rounding of a rational to the nearest number with 53 significant bits. -/
def round64 (q : ℚ) : ℚ :=
  if q = 0 then 0
  else
    let e := Int.log 2 |q|
    let ulp : ℚ := 2 ^ (e - 52)
    roundHalfEven (q / ulp) * ulp

/-- The conversion `float64(n)` of an integer. -/
def float64 (n : Int) : ℚ := round64 n

/-- The conversion `int(x)` of a float64: the fraction is discarded. -/
def truncInt (x : ℚ) : Int := if 0 ≤ x then ⌊x⌋ else ⌈x⌉

/-! ## `time.Duration` (Go standard library: time/time.go)

A `Duration` is a count of nanoseconds. -/

def Second : Int := 1000000000

def Minute : Int := 60 * Second

def Hour : Int := 60 * Minute

/-- The method `Duration.Minutes`:
`min := d / Minute; nsec := d % Minute; return float64(min) + float64(nsec)/(60*1e9)`. -/
def Minutes (d : Int) : ℚ :=
  let min := d.tdiv Minute
  let nsec := d.tmod Minute
  round64 (float64 min + round64 (float64 nsec / 60000000000))

/-- The method `Duration.Hours`:
`hour := d / Hour; nsec := d % Hour; return float64(hour) + float64(nsec)/(60*60*1e9)`. -/
def Hours (d : Int) : ℚ :=
  let hour := d.tdiv Hour
  let nsec := d.tmod Hour
  round64 (float64 hour + round64 (float64 nsec / 3600000000000))

/-! ## `plural` and `formatAge` (display.go, lines 38-73) -/

/-- The function `strings.TrimSpace`; `unicode.IsSpace` holds of the same runes as
the table of `isSpace`. -/
def TrimSpace (s : String) : String :=
  String.mk ((s.data.dropWhile isSpace).reverse.dropWhile isSpace).reverse

/-- The function `plural`. -/
def plural (n : Int) (unit : String) : String :=
  let s := sprintD n ++ " " ++ unit
  let s := if n ≠ 1 then s ++ "s" else s
  let s := s ++ " ago"
  TrimSpace s

/-- An instant of the wall clock, in nanoseconds since the epoch (a `time.Time`
without monotonic clock reading, as `time.Parse` returns it). -/
abbrev Time := Int

def minDuration : Int := -2 ^ 63

def maxDuration : Int := 2 ^ 63 - 1

/-- The call `time.Since(t)`, that is `time.Now().Sub(t)`, at the instant `now`: the
difference of the two instants, saturated to the range of `Duration`. -/
def Since (now t : Int) : Int :=
  if now - t < minDuration then minDuration
  else if maxDuration < now - t then maxDuration
  else now - t

/-- The function `formatAge` at the instant `now`.  The calendar is outside the
program: `Parse` stands for `time.Parse("2006-01-02 15:04:05", ·)` (`none` for an
error) and `Format` for `t.Format("Jan 2")`. -/
def formatAge (Parse : String → Option Time) (now : Time)
    (Format : Time → String) (createdAt : String) : String :=
  match Parse createdAt with
  | none => createdAt
  | some t =>
    let d := Since now t
    if d < Minute then "just now"
    else if d < Hour then
      let m := truncInt (Minutes d)
      plural m "min"
    else if d < 24 * Hour then
      let h := truncInt (Hours d)
      plural h "hr"
    else
      let days := truncInt (round64 (Hours d / 24))
      if days = 1 then "yesterday"
      else if days < 30 then plural days "day"
      else Format t

/-! ## Auxiliary notions used in the statements -/

/-- The predicate of line 130: `r.Type == "error" && r.Error != nil`. -/
def isErrorEntry (r : stmtResult) : Prop := r.Type_ = "error" ∧ r.Error ≠ none

/-- The number that a run of decimal digits denotes, continuing from `acc`. -/
def digitsVal (l : List Char) (acc : Nat) : Nat :=
  l.foldl (fun a c => a * 10 + (c.toNat - '0'.toNat)) acc

/-- The non-negative rationals with at most 53 significant bits. -/
def Rep (p : ℚ) : Prop := ∃ (k : ℕ) (j : ℤ), k < 2 ^ 53 ∧ p = (k : ℚ) * 2 ^ j

/-! ### Lemmas -/

theorem fillRequests_eq (stmts : List stmtBody) :
    ∀ (done : List stmtRequest),
      fillRequests done.length stmts (done ++ List.replicate stmts.length stmtRequest.zero)
        = done ++ stmts.map (fun s => ⟨"execute", some s⟩) := by
  induction stmts with
  | nil => intro done; simp [fillRequests]
  | cons s rest ih =>
    intro done
    have h := ih (done ++ [⟨"execute", some s⟩])
    simp only [List.length_append, List.length_singleton, List.append_assoc,
      List.singleton_append] at h
    simp only [fillRequests, List.length_cons, List.replicate_succ, List.map_cons]
    rw [List.set_append_right _ _ (Nat.le_refl _)]
    simpa using h

theorem buildRequests_eq (stmts : List stmtBody) :
    buildRequests stmts
      = stmts.map (fun s => (⟨"execute", some s⟩ : stmtRequest)) ++ [⟨"close", none⟩] := by
  have h := fillRequests_eq stmts []
  simp only [List.length_nil, List.nil_append] at h
  simp [buildRequests, h]

theorem statusError_head (sc : Int) (b : String) :
    (statusError sc b).data.head? = some 't' := by
  simp [statusError]

theorem checkResults_head (result : pipelineResponse) (e : String)
    (h : checkResults result = .error e) : e.data.head? = some 'S' := by
  unfold checkResults at h
  have key : ∀ (rs : List stmtResult) (m : String),
      scanResults rs = some m → m.data.head? = some 'S' := by
    intro rs
    induction rs with
    | nil => intro m hm; simp [scanResults] at hm
    | cons r rest ih =>
      intro m hm
      unfold scanResults at hm
      split at hm
      · simp only [Option.some.injEq] at hm
        subst hm
        simp
      · exact ih m hm
  cases hs : scanResults result.Results with
  | none => rw [hs] at h; simp at h
  | some m =>
    rw [hs] at h
    simp only [Except.error.injEq] at h
    subst h
    exact key _ _ hs

theorem scanResults_none_iff (rs : List stmtResult) :
    scanResults rs = none ↔ ∀ r ∈ rs, ¬ isErrorEntry r := by
  induction rs with
  | nil => simp [scanResults]
  | cons r rest ih =>
    unfold scanResults
    split
    · rename_i e ht he
      simp only [reduceCtorEq, List.mem_cons, forall_eq_or_imp, false_iff, not_and]
      intro hr
      exact absurd ⟨by simpa using ht, by simp [he]⟩ hr
    · rename_i hneg
      rw [ih]
      simp only [List.mem_cons, forall_eq_or_imp, iff_and_self]
      intro _ hr
      obtain ⟨ht, he⟩ := hr
      cases hE : r.Error with
      | none => exact he hE
      | some e => exact hneg e (by simpa using ht) hE

theorem scanResults_first (pre post : List stmtResult) (r : stmtResult) (e : stmtError)
    (hpre : ∀ x ∈ pre, ¬ isErrorEntry x) (ht : r.Type_ = "error") (he : r.Error = some e) :
    scanResults (pre ++ r :: post) = some ("SQL error: " ++ e.Message) := by
  induction pre with
  | nil => simp [scanResults, ht, he]
  | cons x xs ih =>
    have hx : ¬ isErrorEntry x := hpre x (by simp)
    have hxs : ∀ y ∈ xs, ¬ isErrorEntry y := fun y hy => hpre y (by simp [hy])
    rw [List.cons_append]
    unfold scanResults
    split
    · rename_i e2 ht2 he2
      exact absurd ⟨by simpa using ht2, by simp [he2]⟩ hx
    · exact ih hxs

/-! ### Lemmas on the scanner -/

theorem isDigit_iff (c : Char) : c.isDigit = true ↔ 48 ≤ c.toNat ∧ c.toNat ≤ 57 := by
  simp only [Char.isDigit, Char.toNat, UInt32.le_def, ge_iff_le, Bool.and_eq_true,
    decide_eq_true_eq, BitVec.le_def]
  rfl

theorem digitChar_facts (d : Nat) (h : d < 10) :
    (Nat.digitChar d).isDigit = true ∧ (Nat.digitChar d).toNat - '0'.toNat = d := by
  interval_cases d <;> decide

theorem digitsVal_nil (acc : Nat) : digitsVal [] acc = acc := rfl

theorem digitsVal_cons (c : Char) (cs : List Char) (acc : Nat) :
    digitsVal (c :: cs) acc = digitsVal cs (acc * 10 + (c.toNat - '0'.toNat)) := rfl

theorem digitsVal_append (l₁ l₂ : List Char) (acc : Nat) :
    digitsVal (l₁ ++ l₂) acc = digitsVal l₂ (digitsVal l₁ acc) := by
  simp [digitsVal, List.foldl_append]

theorem digitsVal_eq (l : List Char) (acc : Nat) :
    digitsVal l acc = acc * 10 ^ l.length + digitsVal l 0 := by
  induction l generalizing acc with
  | nil => simp [digitsVal_nil]
  | cons c cs ih =>
    rw [digitsVal_cons, digitsVal_cons, ih, ih (0 * 10 + _)]
    simp only [List.length_cons, pow_succ]
    ring

theorem digitsVal_ge (l : List Char) (acc : Nat) : acc ≤ digitsVal l acc := by
  rw [digitsVal_eq]
  have : 1 ≤ 10 ^ l.length := Nat.one_le_pow _ _ (by decide)
  nlinarith

theorem parseUintLoop_ok (l : List Char) :
    ∀ n, (∀ c ∈ l, c.isDigit = true) → digitsVal l n < 2 ^ 64 →
      parseUintLoop l n = (digitsVal l n, none) := by
  induction l with
  | nil => intro n _ _; rfl
  | cons c cs ih =>
    intro n hall hlt
    have hc : c.isDigit = true := hall c (by simp)
    have hcs : ∀ x ∈ cs, x.isDigit = true := fun x hx => hall x (by simp [hx])
    rw [digitsVal_cons] at hlt ⊢
    have hge := digitsVal_ge cs (n * 10 + (c.toNat - '0'.toNat))
    have hsmall : n * 10 + (c.toNat - '0'.toNat) < 2 ^ 64 := lt_of_le_of_lt hge hlt
    have hmod : (n * 10 + (c.toNat - '0'.toNat)) % 2 ^ 64 = n * 10 + (c.toNat - '0'.toNat) :=
      Nat.mod_eq_of_lt hsmall
    have hcut : ¬ (n ≥ maxUint64 / 10 + 1) := by
      simp only [maxUint64] at *
      omega
    have hno : ¬ (n * 10 + (c.toNat - '0'.toNat) < n * 10
        ∨ n * 10 + (c.toNat - '0'.toNat) > maxUint64) := by
      simp only [maxUint64] at *
      omega
    simp only [parseUintLoop, hc, if_true, hcut, if_false, hmod, hno]
    exact ih _ hcs hlt

theorem parseUintLoop_range (l : List Char) :
    ∀ n, n < 2 ^ 64 → (∀ c ∈ l, c.isDigit = true) → 2 ^ 64 ≤ digitsVal l n →
      parseUintLoop l n = (maxUint64, some .ErrRange) := by
  induction l with
  | nil =>
    intro n hn _ hge
    rw [digitsVal_nil] at hge
    omega
  | cons c cs ih =>
    intro n hn hall hge
    have hc : c.isDigit = true := hall c (by simp)
    have hcs : ∀ x ∈ cs, x.isDigit = true := fun x hx => hall x (by simp [hx])
    have hd : c.toNat - '0'.toNat ≤ 9 := by
      have := (isDigit_iff c).1 hc
      have h0 : '0'.toNat = 48 := rfl
      omega
    rw [digitsVal_cons] at hge
    simp only [parseUintLoop, hc, if_true]
    by_cases hcut : n ≥ maxUint64 / 10 + 1
    · simp [hcut]
    · simp only [hcut, if_false]
      by_cases hov : n * 10 + (c.toNat - '0'.toNat) < 2 ^ 64
      · have hmod := Nat.mod_eq_of_lt hov
        have hno : ¬ (n * 10 + (c.toNat - '0'.toNat) < n * 10
            ∨ n * 10 + (c.toNat - '0'.toNat) > maxUint64) := by
          simp only [maxUint64] at *
          omega
        simp only [hmod, hno, if_false]
        exact ih _ hov hcs hge
      · have hyes : (n * 10 + (c.toNat - '0'.toNat)) % 2 ^ 64 < n * 10
            ∨ (n * 10 + (c.toNat - '0'.toNat)) % 2 ^ 64 > maxUint64 := by
          left
          simp only [maxUint64] at *
          omega
        simp only [hyes, if_true]

theorem ParseUint_digits (l : List Char) (hne : l ≠ []) (hall : ∀ c ∈ l, c.isDigit = true) :
    ParseUint l = if digitsVal l 0 < 2 ^ 64 then (digitsVal l 0, none)
      else (maxUint64, some .ErrRange) := by
  cases l with
  | nil => exact absurd rfl hne
  | cons c cs =>
    simp only [ParseUint]
    split
    · rename_i h
      exact parseUintLoop_ok _ 0 hall h
    · rename_i h
      exact parseUintLoop_range _ 0 (by decide) hall (Nat.le_of_not_lt h)

theorem digit_ne_sign (c : Char) (hc : c.isDigit = true) : c ≠ '+' ∧ c ≠ '-' := by
  have h := (isDigit_iff c).1 hc
  constructor
  · rintro rfl
    exact absurd h (by decide)
  · rintro rfl
    exact absurd h (by decide)

theorem ParseInt_digits (l : List Char) (hne : l ≠ []) (hall : ∀ c ∈ l, c.isDigit = true) :
    ParseInt l = if digitsVal l 0 < 2 ^ 63 then (Int.ofNat (digitsVal l 0), none)
      else (Int.ofNat (2 ^ 63 - 1), some .ErrRange) := by
  cases l with
  | nil => exact absurd rfl hne
  | cons c cs =>
    have hc : c.isDigit = true := hall c (by simp)
    obtain ⟨hp, hm⟩ := digit_ne_sign c hc
    have hu := ParseUint_digits (c :: cs) hne hall
    simp only [ParseInt, hp, hm, or_self, if_false, decide_False]
    rw [hu]
    by_cases h64 : digitsVal (c :: cs) 0 < 2 ^ 64
    · simp only [h64, if_true]
      simp only [Bool.not_false, Bool.false_eq_true, true_and, false_and, if_false]
      split_ifs <;> first | rfl | (exfalso; omega)
    · have h63 : ¬ digitsVal (c :: cs) 0 < 2 ^ 63 := by omega
      simp only [h64, if_false, h63]
      simp [maxUint64]

theorem ParseInt_neg_digits (l : List Char) (hne : l ≠ []) (hall : ∀ c ∈ l, c.isDigit = true) :
    ParseInt ('-' :: l) = if digitsVal l 0 ≤ 2 ^ 63 then (-Int.ofNat (digitsVal l 0), none)
      else (-Int.ofNat (2 ^ 63), some .ErrRange) := by
  have hu := ParseUint_digits l hne hall
  simp only [ParseInt, or_true, if_true, decide_True]
  rw [hu]
  by_cases h64 : digitsVal l 0 < 2 ^ 64
  · simp only [h64, if_true]
    simp only [Bool.not_true, Bool.false_eq_true, true_and, false_and, if_false]
    split_ifs <;> first | rfl | (exfalso; omega)
  · have h63 : ¬ digitsVal l 0 ≤ 2 ^ 63 := by omega
    simp only [h64, if_false, h63]
    simp [maxUint64]

theorem isSpace_false_of_range (c : Char) (h1 : 33 ≤ c.toNat) (h2 : c.toNat ≤ 126) :
    isSpace c = false := by
  simp only [isSpace, Bool.or_eq_false_iff, Bool.and_eq_false_iff, decide_eq_false_iff_not,
    beq_eq_false_iff_ne, ne_eq]
  omega

theorem SkipSpace_of_visible (c : Char) (rest : List Char)
    (h1 : 33 ≤ c.toNat) (h2 : c.toNat ≤ 126) :
    SkipSpace (c :: rest) = some (c :: rest) := by
  have hr : c ≠ '\r' := by
    rintro rfl
    exact absurd h1 (by decide)
  have hn : c ≠ '\n' := by
    rintro rfl
    exact absurd h1 (by decide)
  simp [SkipSpace, hr, hn, isSpace_false_of_range c h1 h2]

theorem takeWhile_digits (ds rest : List Char) (hall : ∀ c ∈ ds, c.isDigit = true)
    (hrest : ∀ c, rest.head? = some c → c.isDigit = false) :
    (ds ++ rest).takeWhile Char.isDigit = ds := by
  induction ds with
  | nil =>
    cases rest with
    | nil => rfl
    | cons r rs => simp [List.takeWhile, hrest r rfl]
  | cons d ds ih =>
    have hd : d.isDigit = true := hall d (by simp)
    rw [List.cons_append, List.takeWhile_cons, hd]
    simp only [if_true]
    rw [ih (fun x hx => hall x (by simp [hx]))]

theorem scanInt_digits (ds rest : List Char) (hne : ds ≠ [])
    (hall : ∀ c ∈ ds, c.isDigit = true)
    (hrest : ∀ c, rest.head? = some c → c.isDigit = false) :
    scanInt (ds ++ rest)
      = if digitsVal ds 0 < 2 ^ 63 then some (Int.ofNat (digitsVal ds 0)) else none := by
  cases ds with
  | nil => exact absurd rfl hne
  | cons c cs =>
    have hc : c.isDigit = true := hall c (by simp)
    have hr := (isDigit_iff c).1 hc
    obtain ⟨hp, hm⟩ := digit_ne_sign c hc
    have htw := takeWhile_digits (c :: cs) rest hall hrest
    simp only [List.cons_append] at htw ⊢
    simp only [scanInt, SkipSpace_of_visible c _ (by omega) (by omega), hp, hm, or_self,
      if_false, hc, if_true, htw, List.nil_append]
    rw [ParseInt_digits (c :: cs) hne hall]
    by_cases h : digitsVal (c :: cs) 0 < 2 ^ 63
    · simp only [h, if_true]
    · simp only [h, if_false]

theorem scanInt_neg_digits (ds rest : List Char) (hne : ds ≠ [])
    (hall : ∀ c ∈ ds, c.isDigit = true)
    (hrest : ∀ c, rest.head? = some c → c.isDigit = false) :
    scanInt ('-' :: (ds ++ rest))
      = if digitsVal ds 0 ≤ 2 ^ 63 then some (-Int.ofNat (digitsVal ds 0)) else none := by
  cases ds with
  | nil => exact absurd rfl hne
  | cons c cs =>
    have hc : c.isDigit = true := hall c (by simp)
    have htw := takeWhile_digits (c :: cs) rest hall hrest
    simp only [List.cons_append] at htw ⊢
    simp only [scanInt, SkipSpace_of_visible '-' _ (by decide) (by decide), or_true,
      if_true, hc, htw, List.singleton_append]
    rw [ParseInt_neg_digits (c :: cs) hne hall]
    by_cases h : digitsVal (c :: cs) 0 ≤ 2 ^ 63
    · simp only [h, if_true]
    · simp only [h, if_false]

theorem toDigitsCore_spec (f : Nat) :
    ∀ (n : Nat) (ds : List Char), n < f →
      ∃ l : List Char, Nat.toDigitsCore 10 f n ds = l ++ ds ∧ l ≠ []
        ∧ (∀ c ∈ l, c.isDigit = true) ∧ digitsVal l 0 = n
        ∧ (0 < n → ∀ c, l.head? = some c → 1 ≤ c.toNat - '0'.toNat) := by
  induction f with
  | zero => intro n ds h; omega
  | succ f ih =>
    intro n ds hn
    have hmod : n % 10 < 10 := Nat.mod_lt _ (by decide)
    obtain ⟨hdig, hval⟩ := digitChar_facts (n % 10) hmod
    by_cases hq : n / 10 = 0
    · refine ⟨[Nat.digitChar (n % 10)], ?_, by simp, ?_, ?_, ?_⟩
      · simp [Nat.toDigitsCore, hq]
      · intro c hc
        simp only [List.mem_singleton] at hc
        rw [hc]; exact hdig
      · rw [digitsVal_cons, digitsVal_nil, hval]
        omega
      · intro hpos c hc
        simp only [List.head?_cons, Option.some.injEq] at hc
        rw [← hc, hval]
        omega
    · have hlt : n / 10 < f := by omega
      obtain ⟨l, hl, hne, hall, hv, hhead⟩ := ih (n / 10) (Nat.digitChar (n % 10) :: ds) hlt
      refine ⟨l ++ [Nat.digitChar (n % 10)], ?_, by simp, ?_, ?_, ?_⟩
      · simp [Nat.toDigitsCore, hq, hl]
      · intro c hc
        rcases List.mem_append.1 hc with h | h
        · exact hall c h
        · simp only [List.mem_singleton] at h
          rw [h]; exact hdig
      · rw [digitsVal_append, hv, digitsVal_cons, digitsVal_nil, hval]
        omega
      · intro _ c hc
        cases l with
        | nil => exact absurd rfl hne
        | cons x xs =>
          simp only [List.cons_append, List.head?_cons, Option.some.injEq] at hc
          exact hhead (by omega) c (by simp [hc])

theorem toDigits_spec (n : Nat) :
    (Nat.toDigits 10 n) ≠ [] ∧ (∀ c ∈ Nat.toDigits 10 n, c.isDigit = true)
      ∧ digitsVal (Nat.toDigits 10 n) 0 = n
      ∧ (0 < n → ∀ c, (Nat.toDigits 10 n).head? = some c → 1 ≤ c.toNat - '0'.toNat) := by
  obtain ⟨l, hl, hne, hall, hv, hhead⟩ := toDigitsCore_spec (n + 1) n [] (Nat.lt_succ_self n)
  have : Nat.toDigits 10 n = l := by simpa [Nat.toDigits] using hl
  rw [this]
  exact ⟨hne, hall, hv, hhead⟩

theorem toDigits_length (n : Nat) (h : n < 2 ^ 64) : (Nat.toDigits 10 n).length ≤ 20 := by
  have := Nat.toDigitsCore_length 10 (by decide) (n + 1) n 20 (by omega) (by decide)
  simpa [Nat.toDigits] using this

theorem Sscanf_d_eq (str : String) : Sscanf_d str = scanRunes (str.data.take hugeWid) := rfl

theorem scanRunes_digits (ds rest : List Char) (hne : ds ≠ [])
    (hall : ∀ c ∈ ds, c.isDigit = true)
    (hrest : ∀ c, rest.head? = some c → c.isDigit = false) :
    scanRunes (ds ++ rest)
      = if digitsVal ds 0 < 2 ^ 63 then some (Int.ofNat (digitsVal ds 0)) else none := by
  have h := scanInt_digits ds rest hne hall hrest
  cases ds with
  | nil => exact absurd rfl hne
  | cons c cs =>
    have hr := (isDigit_iff c).1 (hall c (by simp))
    simp only [List.cons_append] at h ⊢
    simp only [scanRunes, SkipSpace_of_visible c _ (by omega) (by omega)]
    exact h

theorem scanRunes_neg_digits (ds rest : List Char) (hne : ds ≠ [])
    (hall : ∀ c ∈ ds, c.isDigit = true)
    (hrest : ∀ c, rest.head? = some c → c.isDigit = false) :
    scanRunes ('-' :: (ds ++ rest))
      = if digitsVal ds 0 ≤ 2 ^ 63 then some (-Int.ofNat (digitsVal ds 0)) else none := by
  have h := scanInt_neg_digits ds rest hne hall hrest
  simp only [scanRunes, SkipSpace_of_visible '-' _ (by decide) (by decide)]
  exact h

theorem take_short_append (k : Nat) (l rest : List Char) (h : l.length < k) :
    ∃ rest', (l ++ rest).take k = l ++ rest' ∧ rest'.head? = rest.head? := by
  refine ⟨rest.take (k - l.length), ?_, ?_⟩
  · rw [List.take_append_eq_append_take, List.take_of_length_le (Nat.le_of_lt h)]
  · cases rest with
    | nil => simp
    | cons r rs =>
      obtain ⟨j, hj⟩ : ∃ j, k - l.length = j + 1 := ⟨k - l.length - 1, by omega⟩
      rw [hj]
      simp

theorem digitsVal_lower (c : Char) (cs : List Char) :
    (c.toNat - '0'.toNat) * 10 ^ cs.length ≤ digitsVal (c :: cs) 0 := by
  rw [digitsVal_cons, digitsVal_eq]
  simp

theorem digitsVal_take_large (ds : List Char) (k : Nat) (hk : 21 ≤ k) (hlen : k ≤ ds.length)
    (hhead : ∀ c, ds.head? = some c → 1 ≤ c.toNat - '0'.toNat) :
    2 ^ 64 ≤ digitsVal (ds.take k) 0 := by
  cases ds with
  | nil => simp at hlen; omega
  | cons c cs =>
    obtain ⟨j, rfl⟩ : ∃ j, k = j + 1 := ⟨k - 1, by omega⟩
    rw [List.take_succ_cons]
    have h1 := hhead c rfl
    have h2 := digitsVal_lower c (cs.take j)
    have hj : (cs.take j).length = j := by
      rw [List.length_take]
      simp only [List.length_cons] at hlen
      omega
    rw [hj] at h2
    have h3 : 10 ^ 20 ≤ 10 ^ j := Nat.pow_le_pow_right (by decide) (by omega)
    have h4 : 10 ^ j ≤ (c.toNat - '0'.toNat) * 10 ^ j := Nat.le_mul_of_pos_left _ h1
    have h5 : (2 : Nat) ^ 64 ≤ 10 ^ 20 := by norm_num
    omega

theorem scanId_eq (text : String) :
    scanId text = (scanRunes (text.data.take hugeWid)).getD 0 := by
  unfold scanId
  rw [Sscanf_d_eq]
  cases scanRunes (text.data.take hugeWid) <;> rfl

theorem scanId_sprintD_append (n : Int) (hlo : -2 ^ 63 ≤ n) (hhi : n < 2 ^ 63) (tail : String)
    (htail : ∀ c, tail.data.head? = some c → c.isDigit = false) :
    scanId (sprintD n ++ tail) = n := by
  rw [scanId_eq, String.data_append]
  cases n with
  | ofNat m =>
    have hm : m < 2 ^ 63 := by
      have : (m : Int) < 2 ^ 63 := hhi
      exact_mod_cast this
    obtain ⟨hne, hall, hv, _⟩ := toDigits_spec m
    have hlen := toDigits_length m (by omega)
    obtain ⟨rest', htake, hhead⟩ := take_short_append hugeWid (Nat.toDigits 10 m) tail.data
      (by simp only [hugeWid]; omega)
    simp only [sprintD]
    rw [htake, scanRunes_digits _ rest' hne hall (by rw [hhead]; exact htail), hv, if_pos hm]
    rfl
  | negSucc m =>
    have hm : m + 1 ≤ 2 ^ 63 := by
      have h1 : -(2 : Int) ^ 63 ≤ Int.negSucc m := hlo
      rw [Int.negSucc_eq] at h1
      have h2 : ((m : Int) + 1) ≤ 2 ^ 63 := by linarith
      exact_mod_cast h2
    obtain ⟨hne, hall, hv, _⟩ := toDigits_spec (m + 1)
    have hlen := toDigits_length (m + 1) (by omega)
    obtain ⟨rest', htake, hhead⟩ := take_short_append hugeWid ('-' :: Nat.toDigits 10 (m + 1))
      tail.data (by simp only [hugeWid, List.length_cons]; omega)
    simp only [sprintD]
    rw [htake, List.cons_append,
      scanRunes_neg_digits _ rest' hne hall (by rw [hhead]; exact htail), hv]
    rw [if_pos hm, Option.getD_some, Int.negSucc_eq]
    simp

theorem take_digits (k : Nat) (ds : List Char) (hall : ∀ c ∈ ds, c.isDigit = true) :
    ∀ c ∈ ds.take k, c.isDigit = true :=
  fun c hc => hall c (List.mem_of_mem_take hc)

theorem scanRunes_big (ds : List Char) (k : Nat) (hk : 21 ≤ k) (hne : ds ≠ [])
    (hall : ∀ c ∈ ds, c.isDigit = true) (hbig : 2 ^ 63 < digitsVal ds 0)
    (hhead : ∀ c, ds.head? = some c → 1 ≤ c.toNat - '0'.toNat) :
    scanRunes (ds.take k) = none ∧ scanRunes ('-' :: ds.take k) = none := by
  have hne' : ds.take k ≠ [] := by
    cases ds with
    | nil => exact absurd rfl hne
    | cons c cs =>
      obtain ⟨j, rfl⟩ : ∃ j, k = j + 1 := ⟨k - 1, by omega⟩
      simp
  have hall' := take_digits k ds hall
  have hv : 2 ^ 63 < digitsVal (ds.take k) 0 := by
    by_cases h : ds.length ≤ k
    · rw [List.take_of_length_le h]; exact hbig
    · have := digitsVal_take_large ds k hk (by omega) hhead
      omega
  have h1 := scanRunes_digits (ds.take k) [] hne' hall' (by simp)
  have h2 := scanRunes_neg_digits (ds.take k) [] hne' hall' (by simp)
  simp only [List.append_nil] at h1 h2
  rw [h1, h2]
  constructor
  · rw [if_neg (by omega)]
  · rw [if_neg (by omega)]

theorem scanId_sprintD_out_of_range (n : Int) (h : n < -2 ^ 63 ∨ 2 ^ 63 ≤ n) :
    scanId (sprintD n) = 0 := by
  rw [scanId_eq]
  cases n with
  | ofNat m =>
    have hm : 2 ^ 63 ≤ m := by
      rcases h with h | h
      · have h1 : (m : Int) < -2 ^ 63 := h
        have : (0 : Int) ≤ m := Int.ofNat_nonneg m
        linarith
      · have h1 : (2 : Int) ^ 63 ≤ (m : Int) := h
        exact_mod_cast h1
    obtain ⟨hne, hall, hv, hhead⟩ := toDigits_spec m
    simp only [sprintD]
    by_cases h63 : m = 2 ^ 63
    · subst h63
      decide
    · have := (scanRunes_big (Nat.toDigits 10 m) hugeWid (by decide) hne hall
        (by rw [hv]; omega) (hhead (by omega))).1
      rw [this]; rfl
  | negSucc m =>
    have hm : 2 ^ 63 < m + 1 := by
      rcases h with h | h
      · have h1 : Int.negSucc m < -(2 : Int) ^ 63 := h
        rw [Int.negSucc_eq] at h1
        have h2 : (2 : Int) ^ 63 < (m : Int) + 1 := by linarith
        exact_mod_cast h2
      · have h1 : (2 : Int) ^ 63 ≤ Int.negSucc m := h
        have := Int.negSucc_lt_zero m
        have h3 : (0 : Int) < 2 ^ 63 := by norm_num
        linarith
    obtain ⟨hne, hall, hv, hhead⟩ := toDigits_spec (m + 1)
    simp only [sprintD]
    have hk : hugeWid = (hugeWid - 1) + 1 := by decide
    rw [hk, List.take_succ_cons]
    have := (scanRunes_big (Nat.toDigits 10 (m + 1)) (hugeWid - 1) (by decide) hne hall
        (by rw [hv]; exact hm) (hhead (by omega))).2
    rw [this]; rfl

/-! ### Lemmas on leading white space, signs and what follows the digits -/

theorem ParseInt_plus_digits (l : List Char) (hne : l ≠ [])
    (hall : ∀ c ∈ l, c.isDigit = true) :
    ParseInt ('+' :: l) = if digitsVal l 0 < 2 ^ 63 then (Int.ofNat (digitsVal l 0), none)
      else (Int.ofNat (2 ^ 63 - 1), some .ErrRange) := by
  have hu := ParseUint_digits l hne hall
  have hpm : ('+' : Char) ≠ '-' := by decide
  simp only [ParseInt, true_or, if_true, hpm, decide_False]
  rw [hu]
  by_cases h64 : digitsVal l 0 < 2 ^ 64
  · simp only [h64, if_true]
    simp only [Bool.not_false, Bool.false_eq_true, true_and, false_and, if_false]
    split_ifs <;> first | rfl | (exfalso; omega)
  · have h63 : ¬ digitsVal l 0 < 2 ^ 63 := by omega
    simp only [h64, if_false, h63]
    simp [maxUint64]

theorem scanInt_plus_digits (ds rest : List Char) (hne : ds ≠ [])
    (hall : ∀ c ∈ ds, c.isDigit = true)
    (hrest : ∀ c, rest.head? = some c → c.isDigit = false) :
    scanInt ('+' :: (ds ++ rest))
      = if digitsVal ds 0 < 2 ^ 63 then some (Int.ofNat (digitsVal ds 0)) else none := by
  cases ds with
  | nil => exact absurd rfl hne
  | cons c cs =>
    have hc : c.isDigit = true := hall c (by simp)
    have htw := takeWhile_digits (c :: cs) rest hall hrest
    simp only [List.cons_append] at htw ⊢
    simp only [scanInt, SkipSpace_of_visible '+' _ (by decide) (by decide), true_or,
      if_true, hc, htw, List.singleton_append]
    rw [ParseInt_plus_digits (c :: cs) hne hall]
    by_cases h : digitsVal (c :: cs) 0 < 2 ^ 63
    · simp only [h, if_true]
    · simp only [h, if_false]

theorem scanRunes_plus_digits (ds rest : List Char) (hne : ds ≠ [])
    (hall : ∀ c ∈ ds, c.isDigit = true)
    (hrest : ∀ c, rest.head? = some c → c.isDigit = false) :
    scanRunes ('+' :: (ds ++ rest))
      = if digitsVal ds 0 < 2 ^ 63 then some (Int.ofNat (digitsVal ds 0)) else none := by
  have h := scanInt_plus_digits ds rest hne hall hrest
  simp only [scanRunes, SkipSpace_of_visible '+' _ (by decide) (by decide)]
  exact h

theorem SkipSpace_blank (ws rem : List Char)
    (h : ∀ c ∈ ws, isSpace c = true ∧ c ≠ '\n') :
    SkipSpace (ws ++ rem) = SkipSpace rem := by
  induction ws with
  | nil => rfl
  | cons c cs ih =>
    obtain ⟨hs, hn⟩ := h c (by simp)
    have ih' := ih (fun x hx => h x (by simp [hx]))
    rw [List.cons_append, SkipSpace]
    by_cases h1 : c = '\r' ∧ (cs ++ rem).head? = some '\n'
    · rw [if_pos h1]
      exact ih'
    · rw [if_neg h1, if_neg hn, if_pos hs]
      exact ih'

theorem scanRunes_blank (ws rem : List Char)
    (h : ∀ c ∈ ws, isSpace c = true ∧ c ≠ '\n') :
    scanRunes (ws ++ rem) = scanRunes rem := by
  unfold scanRunes
  rw [SkipSpace_blank ws rem h]

theorem scanRunes_nil : scanRunes [] = none := rfl

theorem scanRunes_newline (tail : List Char) : scanRunes ('\n' :: tail) = none := by
  have h1 : ¬ (('\n' : Char) = '\r' ∧ tail.head? = some '\n') := by
    intro h
    exact absurd h.1 (by decide)
  simp only [scanRunes, SkipSpace, h1, if_false, if_true]

theorem scanRunes_no_number (c : Char) (tail : List Char) (hsp : isSpace c = false)
    (hdig : c.isDigit = false)
    (hsign : c = '+' ∨ c = '-' → ∀ d, tail.head? = some d → d.isDigit = false) :
    scanRunes (c :: tail) = none := by
  have hn : c ≠ '\n' := by
    rintro rfl
    exact absurd hsp (by decide)
  have hr : c ≠ '\r' := by
    rintro rfl
    exact absurd hsp (by decide)
  have hskip : SkipSpace (c :: tail) = some (c :: tail) := by
    simp [SkipSpace, hr, hn, hsp]
  simp only [scanRunes, hskip, scanInt]
  by_cases hs : c = '+' ∨ c = '-'
  · simp only [hs, if_true]
    cases tail with
    | nil => rfl
    | cons d ds => simp [hsign hs d rfl]
  · simp [hs, hdig]

theorem scanRunes_sprintD (n : Int) (tail : List Char)
    (htail : ∀ c, tail.head? = some c → c.isDigit = false) :
    scanRunes ((sprintD n).data ++ tail)
      = if -2 ^ 63 ≤ n ∧ n < 2 ^ 63 then some n else none := by
  cases n with
  | ofNat m =>
    obtain ⟨hne, hall, hv, _⟩ := toDigits_spec m
    have hnn : -(2 : Int) ^ 63 ≤ Int.ofNat m := by
      have : (0 : Int) ≤ Int.ofNat m := Int.ofNat_nonneg m
      have h2 : -(2 : Int) ^ 63 ≤ 0 := by norm_num
      exact le_trans h2 this
    simp only [sprintD]
    rw [scanRunes_digits _ tail hne hall htail, hv]
    by_cases hm : m < 2 ^ 63
    · have : Int.ofNat m < 2 ^ 63 := by
        have : (m : Int) < 2 ^ 63 := by exact_mod_cast hm
        exact this
      rw [if_pos hm, if_pos ⟨hnn, this⟩]
    · have : ¬ (Int.ofNat m < 2 ^ 63) := by
        intro h
        have h' : (m : Int) < 2 ^ 63 := h
        exact hm (by exact_mod_cast h')
      rw [if_neg hm, if_neg (fun h => this h.2)]
  | negSucc m =>
    obtain ⟨hne, hall, hv, _⟩ := toDigits_spec (m + 1)
    have hlt : Int.negSucc m < 2 ^ 63 := by
      have := Int.negSucc_lt_zero m
      have h3 : (0 : Int) < 2 ^ 63 := by norm_num
      exact lt_trans this h3
    simp only [sprintD, List.cons_append]
    rw [scanRunes_neg_digits _ tail hne hall htail, hv]
    have hneg : -Int.ofNat (m + 1) = Int.negSucc m := by
      rw [Int.negSucc_eq]
      simp
    by_cases hm : m + 1 ≤ 2 ^ 63
    · have : -(2 : Int) ^ 63 ≤ Int.negSucc m := by
        rw [Int.negSucc_eq]
        have : ((m : Int) + 1) ≤ 2 ^ 63 := by exact_mod_cast hm
        linarith
      rw [if_pos hm, if_pos ⟨this, hlt⟩, hneg]
    · have : ¬ (-(2 : Int) ^ 63 ≤ Int.negSucc m) := by
        intro h
        rw [Int.negSucc_eq] at h
        have h2 : ((m : Int) + 1) ≤ 2 ^ 63 := by linarith
        exact hm (by exact_mod_cast h2)
      rw [if_neg hm, if_neg (fun h => this h.1)]

theorem sprintD_long_out_of_range (n : Int) (h : 22 ≤ (sprintD n).data.length) :
    ¬ (-2 ^ 63 ≤ n ∧ n < 2 ^ 63) := by
  rintro ⟨hlo, hhi⟩
  cases n with
  | ofNat m =>
    have hm : m < 2 ^ 63 := by
      have : (m : Int) < 2 ^ 63 := hhi
      exact_mod_cast this
    have := toDigits_length m (by omega)
    simp only [sprintD] at h
    omega
  | negSucc m =>
    have hm : m + 1 ≤ 2 ^ 63 := by
      have h1 : -(2 : Int) ^ 63 ≤ Int.negSucc m := hlo
      rw [Int.negSucc_eq] at h1
      have h2 : ((m : Int) + 1) ≤ 2 ^ 63 := by linarith
      exact_mod_cast h2
    have := toDigits_length (m + 1) (by omega)
    simp only [sprintD, List.length_cons] at h
    omega

theorem scanRunes_sprintD_truncated (n : Int) (k : Nat) (hk : 22 ≤ k)
    (hlen : k ≤ (sprintD n).data.length) :
    scanRunes ((sprintD n).data.take k) = none := by
  have hout := sprintD_long_out_of_range n (by omega)
  obtain ⟨j, rfl⟩ : ∃ j, k = j + 1 := ⟨k - 1, by omega⟩
  cases n with
  | ofNat m =>
    obtain ⟨hne, hall, hv, hhead⟩ := toDigits_spec m
    have hm : 2 ^ 63 < m := by
      by_contra hle
      have hlen20 := toDigits_length m (by omega)
      simp only [sprintD] at hlen
      omega
    simp only [sprintD]
    exact (scanRunes_big (Nat.toDigits 10 m) (j + 1) (by omega) hne hall
      (by rw [hv]; exact hm) (hhead (by omega))).1
  | negSucc m =>
    obtain ⟨hne, hall, hv, hhead⟩ := toDigits_spec (m + 1)
    have hm : 2 ^ 63 < m + 1 := by
      by_contra hle
      have hlen20 := toDigits_length (m + 1) (by omega)
      simp only [sprintD, List.length_cons] at hlen
      omega
    simp only [sprintD, List.take_succ_cons]
    exact (scanRunes_big (Nat.toDigits 10 (m + 1)) j (by omega) hne hall
      (by rw [hv]; exact hm) (hhead (by omega))).2

theorem scanId_sprintD_general (n : Int) (tail : String)
    (htail : ∀ c, tail.data.head? = some c → c.isDigit = false) :
    scanId (sprintD n ++ tail) = if -2 ^ 63 ≤ n ∧ n < 2 ^ 63 then n else 0 := by
  rw [scanId_eq, String.data_append]
  by_cases hlen : (sprintD n).data.length < hugeWid
  · obtain ⟨rest', htake, hhead⟩ := take_short_append hugeWid (sprintD n).data tail.data hlen
    rw [htake, scanRunes_sprintD n rest' (by rw [hhead]; exact htail)]
    split_ifs <;> rfl
  · have hle : hugeWid ≤ (sprintD n).data.length := Nat.le_of_not_lt hlen
    have hout := sprintD_long_out_of_range n (by
      have : 22 ≤ hugeWid := by decide
      omega)
    rw [List.take_append_of_le_length hle,
      scanRunes_sprintD_truncated n hugeWid (by decide) hle, if_neg hout]
    rfl

theorem digit_run (l : List Char) :
    ∃ ds tail, l = ds ++ tail ∧ (∀ c ∈ ds, c.isDigit = true)
      ∧ (∀ c, tail.head? = some c → c.isDigit = false) := by
  induction l with
  | nil => exact ⟨[], [], rfl, by simp, by simp⟩
  | cons c cs ih =>
    by_cases hc : c.isDigit = true
    · obtain ⟨ds, tail, hl, hall, htail⟩ := ih
      refine ⟨c :: ds, tail, by rw [hl]; rfl, ?_, htail⟩
      intro x hx
      rcases List.mem_cons.1 hx with h | h
      · rw [h]; exact hc
      · exact hall x h
    · refine ⟨[], c :: cs, rfl, by simp, ?_⟩
      intro x hx
      simp only [List.head?_cons, Option.some.injEq] at hx
      rw [← hx]
      simpa using hc

theorem digit_run_nonempty (d : Char) (t : List Char) (hd : d.isDigit = true) :
    ∃ ds tail, d :: t = ds ++ tail ∧ ds ≠ [] ∧ (∀ c ∈ ds, c.isDigit = true)
      ∧ (∀ c, tail.head? = some c → c.isDigit = false) := by
  obtain ⟨ds, tail, hl, hall, htail⟩ := digit_run (d :: t)
  refine ⟨ds, tail, hl, ?_, hall, htail⟩
  rintro rfl
  rw [List.nil_append] at hl
  have := htail d (by rw [← hl]; rfl)
  rw [hd] at this
  exact Bool.noConfusion this

theorem blank_split (l : List Char) :
    ∃ ws rem, l = ws ++ rem ∧ (∀ c ∈ ws, isSpace c = true ∧ c ≠ '\n')
      ∧ (rem = [] ∨ (∃ tail, rem = '\n' :: tail)
          ∨ ∃ c tail, rem = c :: tail ∧ isSpace c = false) := by
  induction l with
  | nil => exact ⟨[], [], rfl, by simp, Or.inl rfl⟩
  | cons c cs ih =>
    by_cases hn : c = '\n'
    · exact ⟨[], c :: cs, rfl, by simp, Or.inr (Or.inl ⟨cs, by rw [hn]⟩)⟩
    · by_cases hs : isSpace c = true
      · obtain ⟨ws, rem, hl, hws, hrem⟩ := ih
        refine ⟨c :: ws, rem, by rw [hl]; rfl, ?_, hrem⟩
        intro x hx
        rcases List.mem_cons.1 hx with h | h
        · rw [h]; exact ⟨hs, hn⟩
        · exact hws x h
      · exact ⟨[], c :: cs, rfl, by simp, Or.inr (Or.inr ⟨c, cs, rfl, by simpa using hs⟩)⟩

/-- Every rune sequence has one of the four shapes that decide the result of the scan. -/
theorem runes_cases (l : List Char) :
    ∃ ws : List Char, (∀ c ∈ ws, isSpace c = true ∧ c ≠ '\n')
      ∧ (l = ws
        ∨ (∃ tail, l = ws ++ '\n' :: tail)
        ∨ (∃ sign ds tail, l = ws ++ sign ++ ds ++ tail
            ∧ (sign = [] ∨ sign = ['+'] ∨ sign = ['-']) ∧ ds ≠ []
            ∧ (∀ c ∈ ds, c.isDigit = true)
            ∧ (∀ c, tail.head? = some c → c.isDigit = false))
        ∨ (∃ c tail, l = ws ++ c :: tail ∧ isSpace c = false ∧ c.isDigit = false
            ∧ (c = '+' ∨ c = '-' → ∀ d, tail.head? = some d → d.isDigit = false))) := by
  obtain ⟨ws, rem, hl, hws, hrem⟩ := blank_split l
  refine ⟨ws, hws, ?_⟩
  rcases hrem with h | ⟨tail, h⟩ | ⟨c, tail, h, hsp⟩
  · left
    rw [hl, h, List.append_nil]
  · right; left
    exact ⟨tail, by rw [hl, h]⟩
  · right; right
    by_cases hd : c.isDigit = true
    · left
      obtain ⟨ds, tail', hrun, hne, hall, htail⟩ := digit_run_nonempty c tail hd
      exact ⟨[], ds, tail', by rw [hl, h, hrun]; simp, Or.inl rfl, hne, hall, htail⟩
    · have hd' : c.isDigit = false := by simpa using hd
      by_cases hs : c = '+' ∨ c = '-'
      · cases tail with
        | nil =>
          right
          exact ⟨c, [], by rw [hl, h], hsp, hd', fun _ d hd2 => by simp at hd2⟩
        | cons d t =>
          by_cases hdd : d.isDigit = true
          · left
            obtain ⟨ds, tail', hrun, hne, hall, htail⟩ := digit_run_nonempty d t hdd
            refine ⟨[c], ds, tail', ?_, ?_, hne, hall, htail⟩
            · rw [hl, h, hrun]; simp
            · rcases hs with rfl | rfl
              · exact Or.inr (Or.inl rfl)
              · exact Or.inr (Or.inr rfl)
          · right
            refine ⟨c, d :: t, by rw [hl, h], hsp, hd', ?_⟩
            intro _ x hx
            simp only [List.head?_cons, Option.some.injEq] at hx
            rw [← hx]
            simpa using hdd
      · right
        exact ⟨c, tail, by rw [hl, h], hsp, hd', fun hc => absurd hc hs⟩

theorem scanRunes_signed (ws sign ds tail : List Char)
    (hws : ∀ c ∈ ws, isSpace c = true ∧ c ≠ '\n')
    (hsign : sign = [] ∨ sign = ['+'] ∨ sign = ['-']) (hne : ds ≠ [])
    (hall : ∀ c ∈ ds, c.isDigit = true)
    (htail : ∀ c, tail.head? = some c → c.isDigit = false) :
    scanRunes (ws ++ sign ++ ds ++ tail)
      = if sign = ['-'] then
          (if digitsVal ds 0 ≤ 2 ^ 63 then some (-Int.ofNat (digitsVal ds 0)) else none)
        else
          (if digitsVal ds 0 < 2 ^ 63 then some (Int.ofNat (digitsVal ds 0)) else none) := by
  rw [List.append_assoc, List.append_assoc, scanRunes_blank ws _ hws]
  rcases hsign with rfl | rfl | rfl
  · rw [if_neg (by decide), List.nil_append]
    exact scanRunes_digits ds tail hne hall htail
  · rw [if_neg (by decide)]
    exact scanRunes_plus_digits ds tail hne hall htail
  · rw [if_pos rfl]
    exact scanRunes_neg_digits ds tail hne hall htail

/-! ### Lemmas on `parseNotes` -/

theorem parseRows_eq (rows : List (List colVal)) :
    ∀ notes, parseRows rows notes = notes ++ rows.filterMap noteOfRow := by
  induction rows with
  | nil => intro notes; simp [parseRows]
  | cons row rest ih =>
    intro notes
    unfold parseRows
    cases h : noteOfRow row with
    | none => simp [ih, List.filterMap_cons, h]
    | some note => simp [ih, List.filterMap_cons, h]

theorem noteOfRow_none_iff (row : List colVal) : noteOfRow row = none ↔ row.length < 3 := by
  match row with
  | [] => simp [noteOfRow]
  | [_] => simp [noteOfRow]
  | [_, _] => simp [noteOfRow]
  | _ :: _ :: _ :: _ => simp [noteOfRow]

theorem parseNotes_first (p : pipelineResponse) (r : stmtResult) (rest : List stmtResult)
    (hres : p.Results = r :: rest) :
    parseNotes (some p) 0
      = match r.Response with
        | none => .ok []
        | some rsp => .ok (rsp.Result.Rows.filterMap noteOfRow) := by
  simp only [parseNotes, hres, List.length_cons]
  have h1 : ¬ ((0 : Int) ≥ ((rest.length + 1 : Nat) : Int)) := by
    push_cast; omega
  simp only [h1, if_false, lt_self_iff_false, Int.toNat_zero, List.getElem?_cons_zero]
  cases r.Response with
  | none => rfl
  | some rsp => simp [parseRows_eq]

/-! ### Lemmas on `LoadConfig` -/

theorem Index_none_iff (pat : List Char) (hpat : pat ≠ []) (s : List Char) :
    Index s pat = none ↔ ¬ pat <:+: s := by
  induction s with
  | nil =>
    cases pat with
    | nil => exact absurd rfl hpat
    | cons p ps => simp [Index, List.isPrefixOf]
  | cons c cs ih =>
    unfold Index
    by_cases hp : pat.isPrefixOf (c :: cs) = true
    · simp only [hp, if_true, reduceCtorEq, false_iff, not_not]
      exact (List.isPrefixOf_iff_prefix.1 hp).isInfix
    · simp only [hp, Bool.false_eq_true, if_false, Option.map_eq_none', ih]
      have hnp : ¬ pat <+: c :: cs := fun h => hp (List.isPrefixOf_iff_prefix.2 h)
      rw [List.infix_cons_iff]
      tauto

theorem Index_first (pat : List Char) (pre rest : List Char)
    (hleft : ∀ k, k < pre.length → ¬ pat <+: (pre ++ pat ++ rest).drop k) :
    Index (pre ++ pat ++ rest) pat = some pre.length := by
  induction pre with
  | nil =>
    have hp : pat.isPrefixOf (pat ++ rest) = true :=
      List.isPrefixOf_iff_prefix.2 (List.prefix_append _ _)
    cases hpr : pat ++ rest with
    | nil =>
      rw [hpr] at hp
      simp [Index, hpr, hp]
    | cons x xs =>
      rw [hpr] at hp
      simp [Index, hpr, hp]
  | cons c cs ih =>
    have h0 : ¬ pat <+: c :: (cs ++ pat ++ rest) := by
      have := hleft 0 (by simp)
      simpa using this
    have hnp : ¬ (pat.isPrefixOf (c :: (cs ++ pat ++ rest)) = true) :=
      fun h => h0 (List.isPrefixOf_iff_prefix.1 h)
    have ih' := ih (fun k hk => by
      have := hleft (k + 1) (by simp; omega)
      simpa using this)
    simp only [List.cons_append, List.append_assoc] at hnp ih' ⊢
    simp only [Index, hnp, Bool.false_eq_true, if_false, ih', Option.map_some',
      List.length_cons]

theorem Replace1_first (old new pre rest : String) (hne : old ≠ new)
    (hleft : ∀ k, k < pre.data.length →
      ¬ old.data <+: (pre.data ++ old.data ++ rest.data).drop k) :
    Replace1 (pre ++ old ++ rest) old new = pre ++ new ++ rest := by
  have hidx := Index_first old.data pre.data rest.data hleft
  simp only [Replace1, hne, if_false, String.data_append, hidx]
  apply String.ext
  simp only [String.data_append, List.append_assoc]
  rw [List.take_left' rfl]
  congr 1
  congr 1
  have : pre.data.length + old.data.length = (pre.data ++ old.data).length := by simp
  rw [this, ← List.append_assoc, List.drop_left' rfl]

theorem Replace1_absent (s old new : String) (hold : old.data ≠ [])
    (h : ¬ old.data <:+: s.data) :
    Replace1 s old new = s := by
  simp only [Replace1, (Index_none_iff old.data hold s.data).2 h]
  split <;> rfl

/-! ### Lemmas on float64 rounding -/

theorem roundHalfEven_cases (x : ℚ) : roundHalfEven x = ⌊x⌋ ∨ roundHalfEven x = ⌊x⌋ + 1 := by
  unfold roundHalfEven
  simp only
  split_ifs <;> simp

theorem le_roundHalfEven (K : ℤ) (x : ℚ) (h : (K : ℚ) ≤ x) : K ≤ roundHalfEven x := by
  have hf : K ≤ ⌊x⌋ := Int.le_floor.2 h
  rcases roundHalfEven_cases x with h1 | h1 <;> rw [h1] <;> omega

theorem roundHalfEven_le (K : ℤ) (x : ℚ) (h : x ≤ (K : ℚ)) : roundHalfEven x ≤ K := by
  have hf : ⌊x⌋ ≤ K := by
    have := Int.floor_le x
    exact_mod_cast (le_trans this h)
  rcases lt_or_eq_of_le hf with hlt | heq
  · rcases roundHalfEven_cases x with h1 | h1 <;> rw [h1] <;> omega
  · have hx : x = (⌊x⌋ : ℚ) := by
      apply le_antisymm
      · rw [heq]; exact h
      · exact Int.floor_le x
    unfold roundHalfEven
    simp only
    have hr : x - (⌊x⌋ : ℚ) < 1 / 2 := by
      rw [← hx]; norm_num
    rw [if_pos hr, heq]

theorem round64_pos_eq (q : ℚ) (hq : 0 < q) :
    round64 q = (roundHalfEven (q / 2 ^ (Int.log 2 q - 52)) : ℚ) * 2 ^ (Int.log 2 q - 52) := by
  unfold round64
  rw [if_neg (ne_of_gt hq), abs_of_pos hq]

theorem zpow_split (e : ℤ) : (2 : ℚ) ^ e = 2 ^ 52 * 2 ^ (e - 52) := by
  have h2 : (2 : ℚ) ≠ 0 := two_ne_zero
  have : (2 : ℚ) ^ (52 : ℕ) = 2 ^ (52 : ℤ) := by norm_cast
  rw [this, ← zpow_add₀ h2]
  congr 1
  ring

/-- A representable number at least `2 ^ e` is an integer multiple of `2 ^ (e - 52)`. -/
theorem Rep_multiple (p : ℚ) (hp : Rep p) (e : ℤ) (hle : (2 : ℚ) ^ e ≤ p) :
    ∃ K : ℤ, p = (K : ℚ) * 2 ^ (e - 52) := by
  obtain ⟨k, j, hk, rfl⟩ := hp
  have h2 : (2 : ℚ) ≠ 0 := two_ne_zero
  have h2pos : (0 : ℚ) < 2 := two_pos
  have hkq : (k : ℚ) < 2 ^ (53 : ℤ) := by
    have : (k : ℚ) < ((2 ^ 53 : ℕ) : ℚ) := by exact_mod_cast hk
    have h53 : (((2 : ℕ) ^ 53 : ℕ) : ℚ) = (2 : ℚ) ^ (53 : ℤ) := by norm_cast
    rw [h53] at this
    exact this
  have hjpos : (0 : ℚ) < 2 ^ j := zpow_pos h2pos j
  have hlt : (2 : ℚ) ^ e < 2 ^ (53 + j) := by
    rw [zpow_add₀ h2]
    calc (2 : ℚ) ^ e ≤ (k : ℚ) * 2 ^ j := hle
      _ < 2 ^ (53 : ℤ) * 2 ^ j := by
        exact mul_lt_mul_of_pos_right hkq hjpos
  have hexp : e < 53 + j := (zpow_lt_zpow_iff_right₀ (by norm_num : (1 : ℚ) < 2)).1 hlt
  obtain ⟨m, hm⟩ : ∃ m : ℕ, j - (e - 52) = (m : ℤ) := ⟨(j - (e - 52)).toNat, by
    rw [Int.toNat_of_nonneg]; omega⟩
  refine ⟨(k : ℤ) * 2 ^ m, ?_⟩
  have hj : j = (m : ℤ) + (e - 52) := by omega
  rw [hj, zpow_add₀ h2]
  push_cast
  rw [zpow_natCast]
  ring

theorem round64_le (q p : ℚ) (hq : 0 < q) (hp : Rep p) (h : q ≤ p) : round64 q ≤ p := by
  have hlog : (2 : ℚ) ^ Int.log 2 q ≤ q := Int.zpow_log_le_self (by norm_num) hq
  obtain ⟨K, hK⟩ := Rep_multiple p hp (Int.log 2 q) (le_trans hlog h)
  have hu : (0 : ℚ) < 2 ^ (Int.log 2 q - 52) := zpow_pos two_pos _
  rw [round64_pos_eq q hq, hK]
  apply mul_le_mul_of_nonneg_right _ (le_of_lt hu)
  have : roundHalfEven (q / 2 ^ (Int.log 2 q - 52)) ≤ K := by
    apply roundHalfEven_le
    rw [div_le_iff₀ hu, ← hK]
    exact h
  exact_mod_cast this

theorem le_round64 (q p : ℚ) (hq : 0 < q) (hp : Rep p) (h : p ≤ q) : p ≤ round64 q := by
  have hlog : (2 : ℚ) ^ Int.log 2 q ≤ q := Int.zpow_log_le_self (by norm_num) hq
  have hu : (0 : ℚ) < 2 ^ (Int.log 2 q - 52) := zpow_pos two_pos _
  rw [round64_pos_eq q hq]
  by_cases hcase : (2 : ℚ) ^ Int.log 2 q ≤ p
  · obtain ⟨K, hK⟩ := Rep_multiple p hp (Int.log 2 q) hcase
    rw [hK]
    apply mul_le_mul_of_nonneg_right _ (le_of_lt hu)
    have : K ≤ roundHalfEven (q / 2 ^ (Int.log 2 q - 52)) := by
      apply le_roundHalfEven
      rw [le_div_iff₀ hu, ← hK]
      exact h
    exact_mod_cast this
  · have hlt : p < 2 ^ Int.log 2 q := lt_of_not_le hcase
    have hcast : ((2 ^ 52 : ℤ) : ℚ) = (2 : ℚ) ^ 52 := by norm_cast
    have h52 : ((2 ^ 52 : ℤ) : ℚ) ≤ q / 2 ^ (Int.log 2 q - 52) := by
      rw [le_div_iff₀ hu, hcast, ← zpow_split]
      exact hlog
    have := le_roundHalfEven (2 ^ 52) _ h52
    have h3 : ((2 ^ 52 : ℤ) : ℚ) ≤ (roundHalfEven (q / 2 ^ (Int.log 2 q - 52)) : ℚ) := by
      exact_mod_cast this
    calc p ≤ 2 ^ Int.log 2 q := le_of_lt hlt
      _ = ((2 ^ 52 : ℤ) : ℚ) * 2 ^ (Int.log 2 q - 52) := by
        rw [hcast]; exact zpow_split _
      _ ≤ _ := mul_le_mul_of_nonneg_right h3 (le_of_lt hu)

theorem round64_zero : round64 0 = 0 := by simp [round64]

theorem round64_nonneg (q : ℚ) (hq : 0 ≤ q) : 0 ≤ round64 q := by
  rcases eq_or_lt_of_le hq with h | h
  · rw [← h, round64_zero]
  · exact le_round64 q 0 h ⟨0, 0, by norm_num, by simp⟩ hq

theorem round64_le' (q p : ℚ) (hq : 0 ≤ q) (hp : Rep p) (h : q ≤ p) : round64 q ≤ p := by
  rcases eq_or_lt_of_le hq with h0 | h0
  · rw [← h0, round64_zero]; rw [← h0] at h; exact h
  · exact round64_le q p h0 hp h

theorem le_round64' (q p : ℚ) (hq : 0 ≤ q) (hp : Rep p) (h : p ≤ q) : p ≤ round64 q := by
  rcases eq_or_lt_of_le hq with h0 | h0
  · rw [← h0, round64_zero]; rw [← h0] at h; exact h
  · exact le_round64 q p h0 hp h

theorem round64_exact (p : ℚ) (h0 : 0 ≤ p) (hp : Rep p) : round64 p = p :=
  le_antisymm (round64_le' p p h0 hp le_rfl) (le_round64' p p h0 hp le_rfl)

theorem Rep_nat (n : ℕ) (h : n < 2 ^ 53) : Rep (n : ℚ) := ⟨n, 0, h, by simp⟩

/-- The number `n + 1 - 2 ^ (-s)` is representable when `(n + 1) * 2 ^ s ≤ 2 ^ 53`. -/
theorem Rep_below (n s : ℕ) (h : (n + 1) * 2 ^ s ≤ 2 ^ 53) :
    Rep ((n : ℚ) + 1 - 1 / 2 ^ s) := by
  have hpos : 0 < 2 ^ s := Nat.pow_pos (by decide)
  refine ⟨(n + 1) * 2 ^ s - 1, -(s : ℤ), by omega, ?_⟩
  have h1 : 1 ≤ (n + 1) * 2 ^ s := Nat.one_le_iff_ne_zero.2 (by positivity)
  rw [Nat.cast_sub h1, zpow_neg, zpow_natCast]
  push_cast
  have : (2 : ℚ) ^ s ≠ 0 := by positivity
  field_simp

/-! ### Lemmas on `Minutes`, `Hours`, `plural` -/

theorem float64_nat (n : ℕ) (h : n < 2 ^ 53) : float64 (n : ℤ) = (n : ℚ) := by
  unfold float64
  rw [Int.cast_natCast]
  exact round64_exact _ (Nat.cast_nonneg n) (Rep_nat n h)

theorem float64_nat_ge (n L : ℕ) (hL : L < 2 ^ 53) (h : L ≤ n) : (L : ℚ) ≤ float64 (n : ℤ) := by
  unfold float64
  rw [Int.cast_natCast]
  exact le_round64' _ _ (Nat.cast_nonneg n) (Rep_nat L hL) (by exact_mod_cast h)

theorem float64_nat_nonneg (n : ℕ) : 0 ≤ float64 (n : ℤ) := by
  unfold float64
  rw [Int.cast_natCast]
  exact round64_nonneg _ (Nat.cast_nonneg n)

theorem sum_bounds (m n U s : ℕ) (hn : n < U) (hUs : U ≤ 2 ^ s)
    (hm : (m + 1) * 2 ^ s ≤ 2 ^ 53) :
    (m : ℚ) ≤ round64 (float64 (m : ℤ) + round64 (float64 (n : ℤ) / (U : ℚ)))
    ∧ round64 (float64 (m : ℤ) + round64 (float64 (n : ℤ) / (U : ℚ)))
        ≤ (m : ℚ) + 1 - 1 / 2 ^ s := by
  have hs1 : 1 ≤ 2 ^ s := Nat.one_le_two_pow
  have hs53 : (0 + 1) * 2 ^ s ≤ 2 ^ 53 := by nlinarith
  have hm53 : m < 2 ^ 53 := by nlinarith
  have hU0 : (0 : ℚ) < U := by exact_mod_cast (Nat.lt_of_le_of_lt (Nat.zero_le n) hn)
  have hspos : (0 : ℚ) < 2 ^ s := by positivity
  rw [float64_nat m hm53, float64_nat n (by omega)]
  have hq0 : (0 : ℚ) ≤ (n : ℚ) / U := div_nonneg (Nat.cast_nonneg n) (le_of_lt hU0)
  have hq1 : (n : ℚ) / U ≤ (0 : ℕ) + 1 - 1 / 2 ^ s := by
    have h1 : (n : ℚ) + 1 ≤ U := by exact_mod_cast hn
    have h2 : (U : ℚ) ≤ 2 ^ s := by exact_mod_cast hUs
    have h3 : (1 : ℚ) / 2 ^ s ≤ 1 / U := one_div_le_one_div_of_le hU0 h2
    have h4 : (n : ℚ) / U ≤ 1 - 1 / U := by
      rw [div_le_iff₀ hU0, sub_mul, one_mul, one_div, inv_mul_cancel₀ (ne_of_gt hU0)]
      linarith
    simp only [Nat.cast_zero, zero_add]
    linarith
  have hf0 := round64_nonneg _ hq0
  have hf1 := round64_le' _ _ hq0 (Rep_below 0 s hs53) hq1
  simp only [Nat.cast_zero, zero_add] at hf1
  have hsum0 : (0 : ℚ) ≤ (m : ℚ) + round64 ((n : ℚ) / U) :=
    add_nonneg (Nat.cast_nonneg m) hf0
  constructor
  · exact le_round64' _ _ hsum0 (Rep_nat m hm53) (by linarith)
  · exact round64_le' _ _ hsum0 (Rep_below m s hm) (by linarith)

theorem sum_lower (m n U L : ℕ) (hU : 0 < U) (hL : L < 2 ^ 53) (h : L ≤ m) :
    (L : ℚ) ≤ round64 (float64 (m : ℤ) + round64 (float64 (n : ℤ) / (U : ℚ))) := by
  have h1 := float64_nat_ge m L hL h
  have h2 := float64_nat_nonneg n
  have hU0 : (0 : ℚ) < U := by exact_mod_cast hU
  have h3 := round64_nonneg _ (div_nonneg h2 (le_of_lt hU0))
  have hL0 : (0 : ℚ) ≤ L := Nat.cast_nonneg L
  exact le_round64' _ _ (by linarith) (Rep_nat L hL) (by linarith)

theorem Minutes_nat (dn : ℕ) :
    Minutes (dn : ℤ)
      = round64 (float64 ((dn / 60000000000 : ℕ) : ℤ)
          + round64 (float64 ((dn % 60000000000 : ℕ) : ℤ) / ((60000000000 : ℕ) : ℚ))) := by
  simp only [Minutes, Minute, Second]
  norm_num
  rfl

theorem Hours_nat (dn : ℕ) :
    Hours (dn : ℤ)
      = round64 (float64 ((dn / 3600000000000 : ℕ) : ℤ)
          + round64 (float64 ((dn % 3600000000000 : ℕ) : ℤ)
              / ((3600000000000 : ℕ) : ℚ))) := by
  simp only [Hours, Hour, Minute, Second]
  norm_num
  rfl

theorem truncInt_eq (x : ℚ) (m : ℕ) (h1 : (m : ℚ) ≤ x) (h2 : x < (m : ℚ) + 1) :
    truncInt x = (m : ℤ) := by
  have h0 : (0 : ℚ) ≤ x := le_trans (Nat.cast_nonneg m) h1
  unfold truncInt
  rw [if_pos h0, Int.floor_eq_iff]
  constructor
  · exact_mod_cast h1
  · exact_mod_cast h2

theorem truncInt_ge (x : ℚ) (L : ℕ) (h1 : (L : ℚ) ≤ x) : (L : ℤ) ≤ truncInt x := by
  have h0 : (0 : ℚ) ≤ x := le_trans (Nat.cast_nonneg L) h1
  unfold truncInt
  rw [if_pos h0]
  exact Int.le_floor.2 (by exact_mod_cast h1)

theorem pow_inv_pos (s : ℕ) : (0 : ℚ) < 1 / 2 ^ s := by positivity

theorem Minutes_trunc (dn : ℕ) (h : dn < 3600000000000) :
    truncInt (Minutes (dn : ℤ)) = ((dn / 60000000000 : ℕ) : ℤ) := by
  have hm : dn / 60000000000 < 60 := by omega
  have hb := sum_bounds (dn / 60000000000) (dn % 60000000000) 60000000000 36
    (Nat.mod_lt _ (by norm_num)) (by norm_num) (by
      have : dn / 60000000000 + 1 ≤ 60 := hm
      calc (dn / 60000000000 + 1) * 2 ^ 36 ≤ 60 * 2 ^ 36 := Nat.mul_le_mul_right _ this
        _ ≤ 2 ^ 53 := by norm_num)
  rw [← Minutes_nat] at hb
  have := pow_inv_pos 36
  exact truncInt_eq _ _ hb.1 (by linarith [hb.2])

theorem Hours_bounds (dn : ℕ) (h : dn / 3600000000000 < 2048) :
    ((dn / 3600000000000 : ℕ) : ℚ) ≤ Hours (dn : ℤ)
    ∧ Hours (dn : ℤ) ≤ ((dn / 3600000000000 : ℕ) : ℚ) + 1 - 1 / 2 ^ 42 := by
  have hb := sum_bounds (dn / 3600000000000) (dn % 3600000000000) 3600000000000 42
    (Nat.mod_lt _ (by norm_num)) (by norm_num) (by
      have : dn / 3600000000000 + 1 ≤ 2048 := h
      calc (dn / 3600000000000 + 1) * 2 ^ 42 ≤ 2048 * 2 ^ 42 := Nat.mul_le_mul_right _ this
        _ ≤ 2 ^ 53 := by norm_num)
  rw [← Hours_nat] at hb
  exact hb

theorem Hours_trunc (dn : ℕ) (h : dn / 3600000000000 < 2048) :
    truncInt (Hours (dn : ℤ)) = ((dn / 3600000000000 : ℕ) : ℤ) := by
  have hb := Hours_bounds dn h
  have := pow_inv_pos 42
  exact truncInt_eq _ _ hb.1 (by linarith [hb.2])

theorem Hours_lower (dn L : ℕ) (hL : L < 2 ^ 53) (h : L ≤ dn / 3600000000000) :
    (L : ℚ) ≤ Hours (dn : ℤ) := by
  rw [Hours_nat]
  exact sum_lower _ _ _ L (by norm_num) hL h

/-- The whole days elapsed, as `formatAge` computes them, when fewer than 64. -/
theorem days_trunc (dn : ℕ) (h : dn / 86400000000000 < 64) :
    truncInt (round64 (Hours (dn : ℤ) / 24)) = ((dn / 86400000000000 : ℕ) : ℤ) := by
  have hh : dn / 3600000000000 < 2048 := by omega
  obtain ⟨hlo, hhi⟩ := Hours_bounds dn hh
  have hD : dn / 86400000000000 = dn / 3600000000000 / 24 := by
    rw [Nat.div_div_eq_div_mul]
  have h1 : 24 * (dn / 86400000000000) ≤ dn / 3600000000000 := by omega
  have h2 : dn / 3600000000000 + 1 ≤ 24 * (dn / 86400000000000 + 1) := by omega
  have h1q : (24 : ℚ) * ((dn / 86400000000000 : ℕ) : ℚ) ≤ ((dn / 3600000000000 : ℕ) : ℚ) := by
    exact_mod_cast h1
  have h2q : ((dn / 3600000000000 : ℕ) : ℚ) + 1
      ≤ 24 * (((dn / 86400000000000 : ℕ) : ℚ) + 1) := by
    exact_mod_cast h2
  have hH0 : (0 : ℚ) ≤ Hours (dn : ℤ) / 24 :=
    div_nonneg (le_trans (Nat.cast_nonneg _) hlo) (by norm_num)
  have hql : ((dn / 86400000000000 : ℕ) : ℚ) ≤ Hours (dn : ℤ) / 24 := by
    rw [le_div_iff₀ (by norm_num : (0 : ℚ) < 24)]
    linarith
  have hqu : Hours (dn : ℤ) / 24 ≤ ((dn / 86400000000000 : ℕ) : ℚ) + 1 - 1 / 2 ^ 47 := by
    rw [div_le_iff₀ (by norm_num : (0 : ℚ) < 24)]
    have e1 : (1 : ℚ) / 2 ^ 47 * 24 ≤ 1 / 2 ^ 42 := by norm_num
    nlinarith
  have hrl := le_round64' _ _ hH0 (Rep_nat _ (by omega)) hql
  have hru := round64_le' _ _ hH0 (Rep_below (dn / 86400000000000) 47 (by
    have : dn / 86400000000000 + 1 ≤ 64 := h
    calc (dn / 86400000000000 + 1) * 2 ^ 47 ≤ 64 * 2 ^ 47 := Nat.mul_le_mul_right _ this
      _ ≤ 2 ^ 53 := by norm_num)) hqu
  have := pow_inv_pos 47
  exact truncInt_eq _ _ hrl (by linarith)

theorem days_ge_30 (dn : ℕ) (h : 30 ≤ dn / 86400000000000) :
    (30 : ℤ) ≤ truncInt (round64 (Hours (dn : ℤ) / 24)) := by
  have h720 : 720 ≤ dn / 3600000000000 := by
    have hD : dn / 86400000000000 = dn / 3600000000000 / 24 := by
      rw [Nat.div_div_eq_div_mul]
    omega
  have hH := Hours_lower dn 720 (by norm_num) h720
  have hq : ((30 : ℕ) : ℚ) ≤ Hours (dn : ℤ) / 24 := by
    rw [le_div_iff₀ (by norm_num : (0 : ℚ) < 24)]
    push_cast at hH ⊢
    linarith
  have hq0 : (0 : ℚ) ≤ Hours (dn : ℤ) / 24 := le_trans (Nat.cast_nonneg 30) hq
  have := le_round64' _ _ hq0 (Rep_nat 30 (by norm_num)) hq
  exact truncInt_ge _ 30 this

theorem sprintD_head (n : Int) :
    ∃ c rest, (sprintD n).data = c :: rest ∧ isSpace c = false := by
  cases n with
  | ofNat m =>
    obtain ⟨hne, hall, _, _⟩ := toDigits_spec m
    cases hd : Nat.toDigits 10 m with
    | nil => exact absurd hd hne
    | cons c rest =>
      refine ⟨c, rest, by simp [sprintD, hd], ?_⟩
      have := (isDigit_iff c).1 (hall c (by simp [hd]))
      exact isSpace_false_of_range c (by omega) (by omega)
  | negSucc m =>
    exact ⟨'-', Nat.toDigits 10 (m + 1), by simp [sprintD], by decide⟩

theorem TrimSpace_id (s : String) (c l : Char) (mid : List Char)
    (h : s.data = c :: (mid ++ [l])) (hc : isSpace c = false) (hl : isSpace l = false) :
    TrimSpace s = s := by
  apply String.ext
  simp only [TrimSpace, h]
  rw [List.dropWhile_cons_of_neg (by simp [hc])]
  rw [List.reverse_cons, List.reverse_append, List.reverse_singleton, List.singleton_append,
    List.cons_append, List.dropWhile_cons_of_neg (by simp [hl])]
  simp

theorem plural_eq (n : Int) (unit : String) :
    plural n unit = sprintD n ++ (" " ++ unit ++ (if n ≠ 1 then "s" else "") ++ " ago") := by
  obtain ⟨c, rest, hd, hc⟩ := sprintD_head n
  have happ : ∀ a b c : String, a ++ b ++ c = a ++ (b ++ c) := by
    intro a b c
    apply String.ext
    simp [String.data_append, List.append_assoc]
  have hemp : ∀ a : String, a ++ "" = a := by
    intro a
    apply String.ext
    simp [String.data_append]
  have hs : (if n ≠ 1 then sprintD n ++ " " ++ unit ++ "s" else sprintD n ++ " " ++ unit) ++ " ago"
      = sprintD n ++ (" " ++ unit ++ (if n ≠ 1 then "s" else "") ++ " ago") := by
    split_ifs
    · simp only [happ]
    · simp only [happ, hemp]
  unfold plural
  simp only
  rw [hs]
  apply TrimSpace_id _ c 'o'
      (rest ++ (" " ++ unit ++ (if n ≠ 1 then "s" else "")).data ++ [' ', 'a', 'g'])
  · simp only [String.data_append, hd, List.cons_append, List.append_assoc]
    rfl
  · exact hc
  · decide

theorem formatAge_some (Parse : String → Option Time) (now : Time)
    (Format : Time → String) (createdAt : String) (t : Time)
    (hparse : Parse createdAt = some t) :
    formatAge Parse now Format createdAt
      = if Since now t < Minute then "just now"
        else if Since now t < Hour then plural (truncInt (Minutes (Since now t))) "min"
        else if Since now t < 24 * Hour then plural (truncInt (Hours (Since now t))) "hr"
        else if truncInt (round64 (Hours (Since now t) / 24)) = 1 then "yesterday"
        else if truncInt (round64 (Hours (Since now t) / 24)) < 30 then
          plural (truncInt (round64 (Hours (Since now t) / 24))) "day"
        else Format t := by
  simp only [formatAge, hparse]

theorem age_minutes (d : Int) (h1 : Minute ≤ d) (h2 : d < Hour) :
    truncInt (Minutes d) = d / Minute := by
  have hd : 0 ≤ d := le_trans (by decide) h1
  obtain ⟨dn, rfl⟩ := Int.eq_ofNat_of_zero_le hd
  have : dn < 3600000000000 := by
    have : (dn : ℤ) < 3600000000000 := h2
    exact_mod_cast this
  rw [Minutes_trunc dn this]
  simp [Minute, Second]

theorem age_hours (d : Int) (h1 : Hour ≤ d) (h2 : d < 24 * Hour) :
    truncInt (Hours d) = d / Hour := by
  have hd : 0 ≤ d := le_trans (by decide) h1
  obtain ⟨dn, rfl⟩ := Int.eq_ofNat_of_zero_le hd
  have : dn < 86400000000000 := by
    have : (dn : ℤ) < 86400000000000 := h2
    exact_mod_cast this
  rw [Hours_trunc dn (by omega)]
  simp [Hour, Minute, Second]

theorem age_days (d : Int) (h1 : 24 * Hour ≤ d) :
    (d / (24 * Hour) < 64 → truncInt (round64 (Hours d / 24)) = d / (24 * Hour))
    ∧ (30 ≤ d / (24 * Hour) → 30 ≤ truncInt (round64 (Hours d / 24))) := by
  have hd : 0 ≤ d := le_trans (by decide) h1
  obtain ⟨dn, rfl⟩ := Int.eq_ofNat_of_zero_le hd
  have hdiv : (dn : ℤ) / (24 * Hour) = ((dn / 86400000000000 : ℕ) : ℤ) := by
    simp [Hour, Minute, Second]
  rw [hdiv]
  constructor
  · intro h
    exact days_trunc dn (by exact_mod_cast h)
  · intro h
    exact days_ge_30 dn (by exact_mod_cast h)

/-- The buckets of `formatAge` in terms of the Duration `d = Since now t`. -/
theorem formatAge_buckets (Parse : String → Option Time) (now : Time)
    (Format : Time → String) (createdAt : String) (t : Time)
    (hparse : Parse createdAt = some t) :
    (Since now t < Minute → formatAge Parse now Format createdAt = "just now")
    ∧ (Minute ≤ Since now t → Since now t < Hour →
        formatAge Parse now Format createdAt
          = sprintD (Since now t / Minute)
            ++ (if Since now t / Minute = 1 then " min ago" else " mins ago"))
    ∧ (Hour ≤ Since now t → Since now t < 24 * Hour →
        formatAge Parse now Format createdAt
          = sprintD (Since now t / Hour)
            ++ (if Since now t / Hour = 1 then " hr ago" else " hrs ago"))
    ∧ (Since now t / (24 * Hour) = 1 → formatAge Parse now Format createdAt = "yesterday")
    ∧ (2 ≤ Since now t / (24 * Hour) → Since now t / (24 * Hour) < 30 →
        formatAge Parse now Format createdAt
          = sprintD (Since now t / (24 * Hour)) ++ " days ago")
    ∧ (30 ≤ Since now t / (24 * Hour) → formatAge Parse now Format createdAt = Format t)
    ∧ (Since now t = 45 * Second → formatAge Parse now Format createdAt = "just now")
    ∧ (Since now t = 90 * Second → formatAge Parse now Format createdAt = "1 min ago")
    ∧ (Since now t = 2 * Minute → formatAge Parse now Format createdAt = "2 mins ago")
    ∧ (Since now t = 25 * Hour → formatAge Parse now Format createdAt = "yesterday") := by
  have hfmt := formatAge_some Parse now Format createdAt t hparse
  have hMH : Minute < Hour := by decide
  have hHD : Hour < 24 * Hour := by decide
  have hDpos : (0 : Int) < 24 * Hour := by decide
  have hmin : Minute ≤ Since now t → Since now t < Hour →
      formatAge Parse now Format createdAt
        = sprintD (Since now t / Minute)
          ++ (if Since now t / Minute = 1 then " min ago" else " mins ago") := by
    intro h1 h2
    rw [hfmt, if_neg (not_lt.2 h1), if_pos h2, age_minutes _ h1 h2, plural_eq]
    congr 1
    split_ifs <;> first | rfl | contradiction
  have hhr : Hour ≤ Since now t → Since now t < 24 * Hour →
      formatAge Parse now Format createdAt
        = sprintD (Since now t / Hour)
          ++ (if Since now t / Hour = 1 then " hr ago" else " hrs ago") := by
    intro h1 h2
    rw [hfmt, if_neg (not_lt.2 (le_trans (le_of_lt hMH) h1)), if_neg (not_lt.2 h1), if_pos h2,
      age_hours _ h1 h2, plural_eq]
    congr 1
    split_ifs <;> first | rfl | contradiction
  have hday : ∀ D : Int, 1 ≤ D → Since now t / (24 * Hour) = D →
      24 * Hour ≤ Since now t := by
    intro D hD hdiv
    by_contra hlt
    have hlt' : Since now t < 24 * Hour := lt_of_not_le hlt
    have : Since now t / (24 * Hour) ≤ 0 := by
      rcases lt_or_le (Since now t) 0 with hneg | hnn
      · exact le_of_lt (Int.ediv_neg' hneg hDpos)
      · exact le_of_eq (Int.ediv_eq_zero_of_lt hnn hlt')
    omega
  have hyest : Since now t / (24 * Hour) = 1 →
      formatAge Parse now Format createdAt = "yesterday" := by
    intro h1
    have hge := hday 1 le_rfl h1
    have hd := (age_days _ hge).1 (by omega)
    rw [hfmt, if_neg (not_lt.2 (le_trans (le_of_lt (lt_trans hMH hHD)) hge)),
      if_neg (not_lt.2 (le_trans (le_of_lt hHD) hge)), if_neg (not_lt.2 hge), hd, if_pos h1]
  refine ⟨?_, hmin, hhr, hyest, ?_, ?_, ?_, ?_, ?_, ?_⟩
  · intro h
    rw [hfmt, if_pos h]
  · intro h2 h30
    have hge := hday _ (by omega) rfl
    have hd := (age_days _ hge).1 (by omega)
    rw [hfmt, if_neg (not_lt.2 (le_trans (le_of_lt (lt_trans hMH hHD)) hge)),
      if_neg (not_lt.2 (le_trans (le_of_lt hHD) hge)), if_neg (not_lt.2 hge), hd,
      if_neg (by omega), if_pos h30, plural_eq, if_pos (by omega)]
    rfl
  · intro h30
    have hge := hday _ (by omega) rfl
    have hd := (age_days _ hge).2 h30
    rw [hfmt, if_neg (not_lt.2 (le_trans (le_of_lt (lt_trans hMH hHD)) hge)),
      if_neg (not_lt.2 (le_trans (le_of_lt hHD) hge)), if_neg (not_lt.2 hge),
      if_neg (by omega), if_neg (by omega)]
  · intro h
    rw [hfmt, if_pos (by rw [h]; decide)]
  · intro h
    rw [hmin (by rw [h]; decide) (by rw [h]; decide), h]
    decide
  · intro h
    rw [hmin (by rw [h]; decide) (by rw [h]; decide), h]
    decide
  · intro h
    exact hyest (by rw [h]; decide)


/-! ### Lemmas on the preview -/

theorem bytes_ascii (l : List Char) (h : ∀ c ∈ l, c.toNat < 128) :
    l.flatMap utf8Encode = l.map Char.toNat := by
  induction l with
  | nil => rfl
  | cons c cs ih =>
    have hc : c.toNat < 128 := h c (by simp)
    rw [List.flatMap_cons, List.map_cons, ih (fun x hx => h x (by simp [hx]))]
    simp [utf8Encode, hc]

/-- On a body of ASCII characters the preview is the text that C9 describes: the
body itself when it has at most 72 characters, otherwise its first 71 characters
followed by the ellipsis marker, 72 characters in all. -/
theorem preview_ascii (body : String) (h : ∀ c ∈ body.data, c.toNat < 128) :
    (body.data.length ≤ 72 → preview (bytes body) = bytes body)
    ∧ (72 < body.data.length →
        preview (bytes body) = bytes (String.mk (body.data.take 71 ++ ['…']))
        ∧ (body.data.take 71 ++ ['…']).length = 72) := by
  have hb : bytes body = body.data.map Char.toNat := bytes_ascii _ h
  have hlen : (bytes body).length = body.data.length := by rw [hb, List.length_map]
  constructor
  · intro hle
    unfold preview
    rw [if_neg (by rw [hlen]; simp only [maxPreviewLen]; omega)]
  · intro hgt
    constructor
    · unfold preview
      rw [if_pos (by rw [hlen]; simp only [maxPreviewLen]; omega)]
      have htake : ∀ c ∈ body.data.take 71, c.toNat < 128 :=
        fun c hc => h c (List.mem_of_mem_take hc)
      simp only [bytes, List.flatMap_append, maxPreviewLen]
      rw [bytes_ascii _ htake, bytes_ascii _ h, List.map_take]
    · rw [List.length_append, List.length_take]
      simp only [List.length_singleton]
      omega

/-! ## Theorems -/

/-- C1: for every ordered sequence of n statements, the request list of `execute`
has exactly n+1 directives; directive i (i < n) has type "execute" and carries
statement i; the last directive has type "close" and carries no statement; no
directive other than the last has type "close". -/
theorem C1_request_list (stmts : List stmtBody) :
    (buildRequests stmts).length = stmts.length + 1
    ∧ (∀ (i : Nat) (s : stmtBody), stmts[i]? = some s →
        (buildRequests stmts)[i]? = some ⟨"execute", some s⟩)
    ∧ (buildRequests stmts)[stmts.length]? = some ⟨"close", none⟩
    ∧ (∀ (i : Nat) (r : stmtRequest), (buildRequests stmts)[i]? = some r → r.Type_ = "close" →
        i = stmts.length ∧ r.Stmt = none) := by
  rw [buildRequests_eq]
  refine ⟨by simp, ?_, ?_, ?_⟩
  · intro i s hs
    have hi : i < stmts.length := by
      by_contra hn
      rw [List.getElem?_eq_none (Nat.le_of_not_lt hn)] at hs
      exact Option.noConfusion hs
    rw [List.getElem?_append_left (by simpa using hi)]
    simp [List.getElem?_map, hs]
  · rw [List.getElem?_append_right (by simp)]
    simp
  · intro i r hr hclose
    by_cases hi : i < stmts.length
    · rw [List.getElem?_append_left (by simpa using hi)] at hr
      simp only [List.getElem?_map, Option.map_eq_some'] at hr
      obtain ⟨s, _, rfl⟩ := hr
      simp at hclose
    · rw [List.getElem?_append_right (by simpa using hi)] at hr
      simp only [List.length_map] at hr
      have hlen : i - stmts.length < 1 := by
        by_contra hn
        rw [List.getElem?_eq_none (by simp; omega)] at hr
        exact Option.noConfusion hr
      have : i = stmts.length := by omega
      subst this
      simp at hr
      subst hr
      exact ⟨rfl, rfl⟩

theorem C1_request_list_witness :
    (buildRequests [⟨"SELECT 1", []⟩, ⟨"DELETE FROM notes WHERE id = ?", [⟨"integer", .str "7"⟩]⟩])
      = [⟨"execute", some ⟨"SELECT 1", []⟩⟩,
         ⟨"execute", some ⟨"DELETE FROM notes WHERE id = ?", [⟨"integer", .str "7"⟩]⟩⟩,
         ⟨"close", none⟩]
    ∧ (buildRequests [⟨"SELECT 1", []⟩,
        ⟨"DELETE FROM notes WHERE id = ?", [⟨"integer", .str "7"⟩]⟩]).length = 2 + 1 :=
  ⟨by decide, (C1_request_list _).1⟩

/-- C2 (as stated, refuted): status 201 lies in 200..299, yet `execute` fails with
the status error and never decodes the body. -/
theorem C2_counterexample :
    (200 ≤ (201 : Int) ∧ (201 : Int) ≤ 299)
    ∧ executeResponse (fun _ => .ok ⟨[]⟩) 201 "created"
        = .error "turso API error (201): created"
    ∧ executeResponse (fun _ => .ok ⟨[]⟩) 201 "created"
        = .error (statusError 201 "created") := by
  refine ⟨by decide, by decide, by decide⟩

/-- C2 (amended): for every status code and body, `execute` fails with the status
error (carrying the status code and the raw body) if and only if the status code
is not 200; for status code 200 it goes on to decode the body and to check the
decoded results. -/
theorem C2_status_error (unmarshal : String → Except String pipelineResponse)
    (StatusCode : Int) (respBody : String) :
    (executeResponse unmarshal StatusCode respBody
        = .error (statusError StatusCode respBody) ↔ StatusCode ≠ 200)
    ∧ (StatusCode = 200 →
        executeResponse unmarshal StatusCode respBody
          = match unmarshal respBody with
            | .error err => .error ("parse response: " ++ err)
            | .ok result => checkResults result) := by
  constructor
  · constructor
    · intro h hsc
      subst hsc
      simp only [executeResponse, ne_eq, not_true_eq_false, if_false] at h
      cases hu : unmarshal respBody with
      | error err =>
        rw [hu] at h
        simp only [Except.error.injEq] at h
        have := congrArg (fun s => s.data.head?) h
        simp [statusError] at this
      | ok result =>
        rw [hu] at h
        simp only at h
        have h1 := checkResults_head result _ h
        rw [statusError_head] at h1
        simp at h1
    · intro hsc
      simp [executeResponse, hsc]
  · intro hsc
    simp [executeResponse, hsc]

theorem C2_status_error_witness :
    executeResponse (fun _ => .ok ⟨[]⟩) 200 "ok" = checkResults ⟨[]⟩ :=
  (C2_status_error (fun _ => .ok ⟨[]⟩) 200 "ok").2 rfl

/-- C3 (as stated, refuted): a result entry that carries an error payload but whose
type is not "error" does not make `execute` fail; and the message reported is not
that of the first entry carrying an error payload. -/
theorem C3_counterexample :
    executeResponse (fun _ => .ok ⟨[⟨"ok", none, some ⟨"boom"⟩⟩]⟩) 200 "body"
        = .ok ⟨[⟨"ok", none, some ⟨"boom"⟩⟩]⟩
    ∧ (⟨"ok", none, some ⟨"boom"⟩⟩ : stmtResult).Error = some ⟨"boom"⟩
    ∧ executeResponse
        (fun _ => .ok ⟨[⟨"ok", none, some ⟨"first"⟩⟩, ⟨"error", none, some ⟨"second"⟩⟩]⟩)
        200 "body"
        = .error "SQL error: second" := by
  refine ⟨by decide, rfl, by decide⟩

/-- C3 (amended): for every decoded response received with status 200, `execute`
fails if and only if at least one result entry, at any index, has type "error" and
carries an error payload; the error message is then "SQL error: " followed by the
message of the first such entry, and when there is no such entry the decoded
response is returned unchanged. -/
theorem C3_embedded_error (unmarshal : String → Except String pipelineResponse)
    (respBody : String) (resp : pipelineResponse)
    (hdec : unmarshal respBody = .ok resp) :
    ((∃ err, executeResponse unmarshal 200 respBody = .error err)
        ↔ ∃ r ∈ resp.Results, r.Type_ = "error" ∧ r.Error ≠ none)
    ∧ (∀ (pre post : List stmtResult) (r : stmtResult) (e : stmtError),
        resp.Results = pre ++ r :: post →
        (∀ x ∈ pre, ¬ (x.Type_ = "error" ∧ x.Error ≠ none)) →
        r.Type_ = "error" → r.Error = some e →
        executeResponse unmarshal 200 respBody = .error ("SQL error: " ++ e.Message))
    ∧ ((∀ r ∈ resp.Results, ¬ (r.Type_ = "error" ∧ r.Error ≠ none)) →
        executeResponse unmarshal 200 respBody = .ok resp) := by
  have hex : executeResponse unmarshal 200 respBody = checkResults resp := by
    simp [executeResponse, hdec]
  rw [hex]
  refine ⟨?_, ?_, ?_⟩
  · unfold checkResults
    cases hs : scanResults resp.Results with
    | none =>
      have := (scanResults_none_iff _).1 hs
      simp only [reduceCtorEq, exists_false, false_iff, not_exists, not_and]
      intro r hr ht he
      exact this r hr ⟨ht, he⟩
    | some m =>
      simp only [Except.error.injEq, exists_eq', true_iff]
      by_contra hne
      have hall : ∀ r ∈ resp.Results, ¬ isErrorEntry r := by
        intro r hr hbad
        exact hne ⟨r, hr, hbad⟩
      rw [(scanResults_none_iff _).2 hall] at hs
      exact Option.noConfusion hs
  · intro pre post r e hres hpre ht he
    unfold checkResults
    rw [hres, scanResults_first pre post r e hpre ht he]
  · intro hall
    unfold checkResults
    rw [(scanResults_none_iff _).2 hall]

theorem C3_embedded_error_witness :
    executeResponse
        (fun _ => .ok ⟨[⟨"ok", none, none⟩, ⟨"error", none, some ⟨"no such table"⟩⟩]⟩) 200 "body"
      = .error ("SQL error: " ++ "no such table") :=
  (C3_embedded_error
      (fun _ => .ok ⟨[⟨"ok", none, none⟩, ⟨"error", none, some ⟨"no such table"⟩⟩]⟩)
      "body" ⟨[⟨"ok", none, none⟩, ⟨"error", none, some ⟨"no such table"⟩⟩]⟩ rfl).2.1
    [⟨"ok", none, none⟩] [] ⟨"error", none, some ⟨"no such table"⟩⟩ ⟨"no such table"⟩
    rfl (by decide) rfl rfl

/-- C4 (as stated, refuted): when the response that `execute` returned has no first
result, or a first result without a success payload, `Delete` returns success
although no affected-row count different from 0 was reported. -/
theorem C4_counterexample :
    executeResponse (fun _ => .ok ⟨[]⟩) 200 "body" = .ok ⟨[]⟩
    ∧ Delete (fun _ => executeResponse (fun _ => .ok ⟨[]⟩) 200 "body") 7 = .ok ()
    ∧ executeResponse (fun _ => .ok ⟨[⟨"ok", none, none⟩]⟩) 200 "body"
        = .ok ⟨[⟨"ok", none, none⟩]⟩
    ∧ Delete (fun _ => executeResponse (fun _ => .ok ⟨[⟨"ok", none, none⟩]⟩) 200 "body") 7
        = .ok () := by
  refine ⟨by decide, by decide, by decide, by decide⟩

/-- C4 (amended): for every id and every response that `execute` returned without
error for the delete statement: when the response has a first result with a
success payload, `Delete` returns success if and only if that payload reports an
affected-row count different from 0, and returns the error "note #<id> not found"
when the count is 0; when the response has no first result, or its first result
has no success payload, `Delete` returns success. -/
theorem C4_delete (execute : List stmtBody → Except String pipelineResponse)
    (id : Int) (resp : pipelineResponse)
    (hexec : execute (deleteStmts id) = .ok resp) :
    (∀ (r : stmtResult) (rest : List stmtResult) (rsp : stmtResponse),
        resp.Results = r :: rest → r.Response = some rsp →
        (Delete execute id = .ok () ↔ rsp.Result.AffectedRows ≠ 0)
        ∧ (rsp.Result.AffectedRows = 0 →
            Delete execute id = .error ("note #" ++ sprintD id ++ " not found")))
    ∧ (resp.Results = [] → Delete execute id = .ok ())
    ∧ (∀ (r : stmtResult) (rest : List stmtResult),
        resp.Results = r :: rest → r.Response = none → Delete execute id = .ok ()) := by
  refine ⟨?_, ?_, ?_⟩
  · intro r rest rsp hres hrsp
    by_cases h0 : rsp.Result.AffectedRows = 0
    · simp [Delete, hexec, hres, hrsp, h0]
    · simp [Delete, hexec, hres, hrsp, h0]
  · intro hres
    simp [Delete, hexec, hres]
  · intro r rest hres hrsp
    simp [Delete, hexec, hres, hrsp]

theorem C4_delete_witness :
    Delete (fun _ => .ok ⟨[⟨"ok", some ⟨"execute", ⟨[], [], 0, ""⟩⟩, none⟩]⟩) 7
      = .error ("note #" ++ sprintD 7 ++ " not found") :=
  ((C4_delete (fun _ => .ok ⟨[⟨"ok", some ⟨"execute", ⟨[], [], 0, ""⟩⟩, none⟩]⟩) 7
      ⟨[⟨"ok", some ⟨"execute", ⟨[], [], 0, ""⟩⟩, none⟩]⟩ rfl).1
    ⟨"ok", some ⟨"execute", ⟨[], [], 0, ""⟩⟩, none⟩ [] ⟨"execute", ⟨[], [], 0, ""⟩⟩
    rfl rfl).2 rfl

/-- C5: round trip of a note body.  For every string `body` (of any length, ASCII
or not), the insert statement built by `Add` carries exactly one argument, of type
"text" and with value `body`; and projecting with `parseNotes` a success response
whose single row has three cells, the second being that text value, yields exactly
one Note, whose Body equals `body`. -/
theorem C5_round_trip (body : String) :
    (∃ sql, addStmts body = [⟨sql, [⟨"text", .str body⟩]⟩])
    ∧ ∀ (c0 c2 : colVal) (ty ty' : String) (cols : List colInfo) (affected : Int)
        (lastId : String) (err : Option stmtError) (rest : List stmtResult),
        ∃ note : Note,
          parseNotes
            (some ⟨⟨ty, some ⟨ty', ⟨cols, [[c0, ⟨"text", .str body⟩, c2]], affected, lastId⟩⟩,
              err⟩ :: rest⟩) 0
            = .ok [note]
          ∧ note.Body = body := by
  refine ⟨⟨_, rfl⟩, ?_⟩
  intro c0 c2 ty ty' cols affected lastId err rest
  refine ⟨⟨scanId c0.Value.sprintV, body, c2.Value.sprintV⟩, ?_, rfl⟩
  rw [parseNotes_first _ _ rest rfl]
  simp [noteOfRow, AnyValue.sprintV]

theorem C5_round_trip_witness :
    ∃ note : Note,
      parseNotes
        (some ⟨[⟨"ok", some ⟨"execute", ⟨[⟨"id"⟩, ⟨"body"⟩, ⟨"created_at"⟩],
          [[⟨"integer", .str "12"⟩,
            ⟨"text", .str ("Grüße aus Köln — acheter du café, 牛乳を買う, "
              ++ "and a tail that takes the body past seventy-two characters")⟩,
            ⟨"text", .str "2024-01-02 03:04:05"⟩]], 0, ""⟩⟩, none⟩]⟩) 0
        = .ok [note]
      ∧ note.Body = "Grüße aus Köln — acheter du café, 牛乳を買う, "
          ++ "and a tail that takes the body past seventy-two characters" :=
  (C5_round_trip ("Grüße aus Köln — acheter du café, 牛乳を買う, "
      ++ "and a tail that takes the body past seventy-two characters")).2
    ⟨"integer", .str "12"⟩ ⟨"text", .str "2024-01-02 03:04:05"⟩ "ok" "execute"
    [⟨"id"⟩, ⟨"body"⟩, ⟨"created_at"⟩] 0 "" none []

/-- C6: for every decoded response, `parseNotes(resp, 0)` never fails and returns
exactly one Note per row of the first result that has at least three cells, in the
original row order; rows with fewer than three cells contribute nothing; the
result is empty when the response is absent, has no result at index 0, or that
result has no success payload. -/
theorem C6_projection (resp : Option pipelineResponse) :
    (∃ notes, parseNotes resp 0 = .ok notes)
    ∧ (resp = none → parseNotes resp 0 = .ok [])
    ∧ (∀ p, resp = some p → p.Results = [] → parseNotes resp 0 = .ok [])
    ∧ (∀ p r rest, resp = some p → p.Results = r :: rest → r.Response = none →
        parseNotes resp 0 = .ok [])
    ∧ (∀ p r rest rsp, resp = some p → p.Results = r :: rest → r.Response = some rsp →
        ∃ notes, parseNotes resp 0 = .ok notes
          ∧ notes.length
              = (rsp.Result.Rows.filter (fun row => decide (3 ≤ row.length))).length
          ∧ List.Forall₂ (fun row note => noteOfRow row = some note)
              (rsp.Result.Rows.filter (fun row => decide (3 ≤ row.length))) notes
          ∧ notes = rsp.Result.Rows.filterMap noteOfRow)
    ∧ (∀ row : List colVal, row.length < 3 ↔ noteOfRow row = none) := by
  have hfm : ∀ rows : List (List colVal),
      List.Forall₂ (fun row note => noteOfRow row = some note)
        (rows.filter (fun row => decide (3 ≤ row.length))) (rows.filterMap noteOfRow) := by
    intro rows
    induction rows with
    | nil => exact List.Forall₂.nil
    | cons row rest ih =>
      cases h : noteOfRow row with
      | none =>
        have hlen := (noteOfRow_none_iff row).1 h
        have : ¬ (3 ≤ row.length) := by omega
        simpa [List.filter_cons, List.filterMap_cons, h, this] using ih
      | some note =>
        have hlen : 3 ≤ row.length := by
          by_contra hn
          rw [(noteOfRow_none_iff row).2 (by omega)] at h
          exact Option.noConfusion h
        simpa [List.filter_cons, List.filterMap_cons, h, hlen] using ih
  refine ⟨?_, ?_, ?_, ?_, ?_, ?_⟩
  · cases resp with
    | none => exact ⟨[], rfl⟩
    | some p =>
      cases hres : p.Results with
      | nil => exact ⟨[], by simp [parseNotes, hres]⟩
      | cons r rest =>
        rw [parseNotes_first p r rest hres]
        cases r.Response with
        | none => exact ⟨[], rfl⟩
        | some rsp => exact ⟨_, rfl⟩
  · intro h; subst h; rfl
  · intro p h hres; subst h
    simp [parseNotes, hres]
  · intro p r rest h hres hrsp; subst h
    rw [parseNotes_first p r rest hres, hrsp]
  · intro p r rest rsp h hres hrsp; subst h
    rw [parseNotes_first p r rest hres, hrsp]
    exact ⟨_, rfl, (List.Forall₂.length_eq (hfm _)).symm, hfm _, rfl⟩
  · intro row
    exact (noteOfRow_none_iff row).symm

theorem C6_projection_witness :
    parseNotes (some ⟨[⟨"ok", some ⟨"execute", ⟨[], [[⟨"integer", .str "3"⟩],
        [⟨"integer", .str "2"⟩, ⟨"text", .str "milk"⟩, ⟨"text", .str "2024-01-02 03:04:05"⟩]],
        0, ""⟩⟩, none⟩]⟩) 0 = .ok [⟨2, "milk", "2024-01-02 03:04:05"⟩]
    ∧ parseNotes none 0 = .ok [] :=
  ⟨by decide, (C6_projection none).2.1 rfl⟩

/-- C7 (as stated, refuted): the text "12abc" (digits followed by other characters)
does not parse as an integer as a whole, yet the Note gets ID 12 and not 0. -/
theorem C7_counterexample :
    ParseInt "12abc".data = (0, some .ErrSyntax)
    ∧ scanId "12abc" = 12
    ∧ parseNotes (some ⟨[⟨"ok", some ⟨"execute",
        ⟨[], [[⟨"text", .str "12abc"⟩, ⟨"text", .str "milk"⟩, ⟨"text", .str "now"⟩]], 0, ""⟩⟩,
        none⟩]⟩) 0 = .ok [⟨12, "milk", "now"⟩] := by
  refine ⟨by decide, by decide, by decide⟩

/-- C7 (amended): for every row with at least three cells, the row is projected to
one Note, between the Notes of the rows before it and after it, which do not
depend on it.  Its ID is read from the textual form of the first cell's value as
`fmt.Sscanf` with "%d" reads it, on the first 2^30 characters of the text (all of
it for a shorter text): leading white space other than a newline is skipped, then
an optional sign and the longest run of decimal digits are read, and what follows
the digits is ignored.  The ID equals n when what is read is the decimal
representation of a 64-bit integer n, with or without leading white space and
whatever follows the digits (so "12abc" gives 12); a plus sign and leading zeros
are accepted.  The ID is 0 in every other case: the text is empty or only white
space, a newline occurs in the leading white space, the first character after the
white space is neither a sign nor a digit, a sign is not followed by a digit, or
the digits denote a value outside the 64-bit range, also when other characters
follow them.  These cases cover every text. -/
theorem C7_id_parsing :
    (∀ (p : pipelineResponse) (r : stmtResult) (rest : List stmtResult) (rsp : stmtResponse)
        (pre post : List (List colVal)) (c0 c1 c2 : colVal) (more : List colVal),
        p.Results = r :: rest → r.Response = some rsp →
        rsp.Result.Rows = pre ++ (c0 :: c1 :: c2 :: more) :: post →
        parseNotes (some p) 0
          = .ok (parseRows pre []
              ++ ⟨scanId c0.Value.sprintV, c1.Value.sprintV, c2.Value.sprintV⟩
              :: parseRows post []))
    ∧ (∀ (n : Int) (tail : String),
        (∀ c, tail.data.head? = some c → c.isDigit = false) →
        scanId (sprintD n ++ tail) = if -2 ^ 63 ≤ n ∧ n < 2 ^ 63 then n else 0)
    ∧ (∀ (text : String) (ws : List Char) (n : Int) (tail : List Char),
        text.data.take hugeWid = ws ++ (sprintD n).data ++ tail →
        (∀ c ∈ ws, isSpace c = true ∧ c ≠ '\n') →
        (∀ c, tail.head? = some c → c.isDigit = false) →
        scanId text = if -2 ^ 63 ≤ n ∧ n < 2 ^ 63 then n else 0)
    ∧ (∀ (text : String) (ws sign ds tail : List Char),
        text.data.take hugeWid = ws ++ sign ++ ds ++ tail →
        (∀ c ∈ ws, isSpace c = true ∧ c ≠ '\n') →
        (sign = [] ∨ sign = ['+'] ∨ sign = ['-']) → ds ≠ [] →
        (∀ c ∈ ds, c.isDigit = true) →
        (∀ c, tail.head? = some c → c.isDigit = false) →
        scanId text
          = if sign = ['-'] then
              (if digitsVal ds 0 ≤ 2 ^ 63 then -Int.ofNat (digitsVal ds 0) else 0)
            else
              (if digitsVal ds 0 < 2 ^ 63 then Int.ofNat (digitsVal ds 0) else 0))
    ∧ (∀ (text : String),
        (∀ c ∈ text.data.take hugeWid, isSpace c = true ∧ c ≠ '\n') → scanId text = 0)
    ∧ (∀ (text : String) (ws tail : List Char),
        text.data.take hugeWid = ws ++ '\n' :: tail →
        (∀ c ∈ ws, isSpace c = true ∧ c ≠ '\n') → scanId text = 0)
    ∧ (∀ (text : String) (ws : List Char) (c : Char) (tail : List Char),
        text.data.take hugeWid = ws ++ c :: tail →
        (∀ c ∈ ws, isSpace c = true ∧ c ≠ '\n') →
        isSpace c = false → c.isDigit = false →
        (c = '+' ∨ c = '-' → ∀ d, tail.head? = some d → d.isDigit = false) →
        scanId text = 0)
    ∧ (∀ (text : String), ∃ ws : List Char, (∀ c ∈ ws, isSpace c = true ∧ c ≠ '\n')
        ∧ (text.data.take hugeWid = ws
          ∨ (∃ tail, text.data.take hugeWid = ws ++ '\n' :: tail)
          ∨ (∃ sign ds tail, text.data.take hugeWid = ws ++ sign ++ ds ++ tail
              ∧ (sign = [] ∨ sign = ['+'] ∨ sign = ['-']) ∧ ds ≠ []
              ∧ (∀ c ∈ ds, c.isDigit = true)
              ∧ (∀ c, tail.head? = some c → c.isDigit = false))
          ∨ (∃ c tail, text.data.take hugeWid = ws ++ c :: tail
              ∧ isSpace c = false ∧ c.isDigit = false
              ∧ (c = '+' ∨ c = '-' → ∀ d, tail.head? = some d → d.isDigit = false))))
    ∧ (∀ (text : String), text.data.length ≤ hugeWid →
        text.data.take hugeWid = text.data) := by
  refine ⟨?_, ?_, ?_, ?_, ?_, ?_, ?_, ?_, ?_⟩
  · intro p r rest rsp pre post c0 c1 c2 more hres hrsp hrows
    rw [parseNotes_first p r rest hres, hrsp]
    simp only [hrows, parseRows_eq, List.nil_append, List.filterMap_append,
      List.filterMap_cons, noteOfRow]
  · intro n tail htail
    exact scanId_sprintD_general n tail htail
  · intro text ws n tail hrunes hws htail
    rw [scanId_eq, hrunes, List.append_assoc, scanRunes_blank ws _ hws,
      scanRunes_sprintD n tail htail]
    split_ifs <;> rfl
  · intro text ws sign ds tail hrunes hws hsign hne hall htail
    rw [scanId_eq, hrunes, scanRunes_signed ws sign ds tail hws hsign hne hall htail]
    split_ifs <;> rfl
  · intro text hws
    have h := scanRunes_blank (text.data.take hugeWid) [] hws
    rw [List.append_nil] at h
    rw [scanId_eq, h, scanRunes_nil]
    rfl
  · intro text ws tail hrunes hws
    rw [scanId_eq, hrunes, scanRunes_blank ws _ hws, scanRunes_newline]
    rfl
  · intro text ws c tail hrunes hws hsp hdig hsign
    rw [scanId_eq, hrunes, scanRunes_blank ws _ hws,
      scanRunes_no_number c tail hsp hdig hsign]
    rfl
  · intro text
    exact runes_cases (text.data.take hugeWid)
  · intro text hlen
    exact List.take_of_length_le hlen

theorem C7_id_parsing_witness :
    scanId " 42" = 42
    ∧ scanId " abc" = 0
    ∧ scanId "\nabc" = 0
    ∧ scanId (sprintD 99999999999999999999 ++ "abc") = 0
    ∧ scanId (sprintD (-9223372036854775808) ++ " rows") = -9223372036854775808 :=
  ⟨(C7_id_parsing.2.2.1 " 42" [' '] 42 [] (by decide) (by decide) (by decide)).trans
      (if_pos (by decide)),
   C7_id_parsing.2.2.2.2.2.2.1 " abc" [' '] 'a' ['b', 'c'] (by decide) (by decide)
      (by decide) (by decide) (by decide),
   C7_id_parsing.2.2.2.2.2.1 "\nabc" [] ['a', 'b', 'c'] (by decide) (by decide),
   (C7_id_parsing.2.1 99999999999999999999 "abc" (by decide)).trans (if_neg (by decide)),
   (C7_id_parsing.2.1 (-9223372036854775808) " rows" (by decide)).trans
      (if_pos (by decide))⟩

/-- C8 (as stated, refuted): a URL that does not start with "libsql://" but
contains it later is not left unchanged. -/
theorem C8_counterexample :
    ¬ ("libsql://".data <+: "ws+libsql://db.turso.io".data)
    ∧ LoadConfig "ws+libsql://db.turso.io" "t" = .ok ⟨"ws+https://db.turso.io", "t"⟩
    ∧ LoadConfig "ws+libsql://db.turso.io" "t" ≠ .ok ⟨"ws+libsql://db.turso.io", "t"⟩ := by
  refine ⟨by decide, by decide, by decide⟩

/-- C8 (amended): URL normalisation in `LoadConfig`.  For every non-empty URL u
(with a non-empty token), the configured URL equals "https://" followed by the
rest of u when u starts with "libsql://" (only that leftmost occurrence is
replaced, whatever follows); it equals u unchanged for every u in which
"libsql://" does not occur; and when "libsql://" first occurs at a later position
of u, that leftmost occurrence alone is replaced by "https://". -/
theorem C8_url_normalisation (u token : String) (hu : u ≠ "") (ht : token ≠ "") :
    (∀ rest : String, u = "libsql://" ++ rest →
        LoadConfig u token = .ok ⟨"https://" ++ rest, token⟩)
    ∧ (¬ "libsql://".data <:+: u.data → LoadConfig u token = .ok ⟨u, token⟩)
    ∧ (∀ pre rest : String, u = pre ++ "libsql://" ++ rest →
        (∀ k, k < pre.data.length → ¬ "libsql://".data <+: u.data.drop k) →
        LoadConfig u token = .ok ⟨pre ++ "https://" ++ rest, token⟩) := by
  have hcfg : LoadConfig u token = .ok ⟨Replace1 u "libsql://" "https://", token⟩ := by
    simp [LoadConfig, hu, ht]
  have hne : ("libsql://" : String) ≠ "https://" := by decide
  have h3 : ∀ pre rest : String, u = pre ++ "libsql://" ++ rest →
      (∀ k, k < pre.data.length → ¬ "libsql://".data <+: u.data.drop k) →
      LoadConfig u token = .ok ⟨pre ++ "https://" ++ rest, token⟩ := by
    intro pre rest hurl hleft
    rw [hcfg, hurl]
    rw [Replace1_first "libsql://" "https://" pre rest hne (by
      intro k hk
      have := hleft k hk
      rw [hurl] at this
      simpa only [String.data_append] using this)]
  refine ⟨?_, ?_, h3⟩
  · intro rest hurl
    have he : ∀ x : String, ("" : String) ++ x = x := by
      intro x
      apply String.ext
      rw [String.data_append]
      rfl
    have := h3 "" rest (by rw [he]; exact hurl) (by
      intro k hk
      exact absurd hk (Nat.not_lt_zero k))
    rw [he] at this
    exact this
  · intro habs
    rw [hcfg, Replace1_absent u "libsql://" "https://" (by decide) habs]

theorem C8_url_normalisation_witness :
    LoadConfig ("libsql://" ++ "foo.turso.io/libsql://x") "secret"
      = .ok ⟨"https://" ++ "foo.turso.io/libsql://x", "secret"⟩ :=
  (C8_url_normalisation ("libsql://" ++ "foo.turso.io/libsql://x") "secret"
    (by decide) (by decide)).1 "foo.turso.io/libsql://x" rfl

/-- C9 (the code at the failing input): a body of 40 characters "é" is at most 72
characters long, so its preview should be the body unchanged; its 80 bytes exceed
the limit, and the preview is the first 35 characters, one half of the 36th
character (the byte 0xC3) and the bytes of the ellipsis marker. -/
theorem C9_preview_splits_character :
    (String.mk (List.replicate 40 'é')).length = 40
    ∧ (bytes (String.mk (List.replicate 40 'é'))).length = 80
    ∧ preview (bytes (String.mk (List.replicate 40 'é')))
        = bytes (String.mk (List.replicate 35 'é')) ++ [0xC3] ++ [0xE2, 0x80, 0xA6]
    ∧ preview (bytes (String.mk (List.replicate 40 'é')))
        ≠ bytes (String.mk (List.replicate 40 'é')) := by
  refine ⟨by decide, by decide, by decide, by decide⟩


/-- C10: age buckets of `formatAge`, for every timestamp that parses and every
current time, with d = now - t the elapsed time: d < 1 minute gives "just now";
1 minute <= d < 1 hour gives "N min ago" or "N mins ago" with N the whole minutes
elapsed; 1 hour <= d < 1 day gives "N hr ago" or "N hrs ago" with N the whole
hours; exactly 1 whole day elapsed gives "yesterday"; 2 <= whole days < 30 gives
"N days ago"; 30 days or more gives the month-day label; the unit is singular
exactly when N = 1.  In particular 45 seconds gives "just now", 90 seconds
"1 min ago", 2 minutes "2 mins ago" and 25 hours "yesterday". -/
theorem C10_age_buckets (Parse : String → Option Time) (now : Int)
    (Format : Time → String) (createdAt : String) (t : Int)
    (hparse : Parse createdAt = some t) :
    (now - t < Minute → formatAge Parse now Format createdAt = "just now")
    ∧ (Minute ≤ now - t → now - t < Hour →
        formatAge Parse now Format createdAt
          = sprintD ((now - t) / Minute)
            ++ (if (now - t) / Minute = 1 then " min ago" else " mins ago"))
    ∧ (Hour ≤ now - t → now - t < 24 * Hour →
        formatAge Parse now Format createdAt
          = sprintD ((now - t) / Hour)
            ++ (if (now - t) / Hour = 1 then " hr ago" else " hrs ago"))
    ∧ ((now - t) / (24 * Hour) = 1 → formatAge Parse now Format createdAt = "yesterday")
    ∧ (2 ≤ (now - t) / (24 * Hour) → (now - t) / (24 * Hour) < 30 →
        formatAge Parse now Format createdAt
          = sprintD ((now - t) / (24 * Hour)) ++ " days ago")
    ∧ (30 ≤ (now - t) / (24 * Hour) → formatAge Parse now Format createdAt = Format t)
    ∧ (now - t = 45 * Second → formatAge Parse now Format createdAt = "just now")
    ∧ (now - t = 90 * Second → formatAge Parse now Format createdAt = "1 min ago")
    ∧ (now - t = 2 * Minute → formatAge Parse now Format createdAt = "2 mins ago")
    ∧ (now - t = 25 * Hour → formatAge Parse now Format createdAt = "yesterday") := by
  obtain ⟨b1, b2, b3, b4, b5, b6, _, _, _, _⟩ :=
    formatAge_buckets Parse now Format createdAt t hparse
  have hS : Second = 1000000000 := rfl
  have hM : Minute = 60000000000 := rfl
  have hH : Hour = 3600000000000 := rfl
  have hlo : minDuration = -9223372036854775808 := rfl
  have hhi : maxDuration = 9223372036854775807 := rfl
  have hsat : Since now t = now - t
      ∨ (Since now t = minDuration ∧ now - t < minDuration)
      ∨ (Since now t = maxDuration ∧ maxDuration < now - t) := by
    unfold Since
    split_ifs with h1 h2
    · exact Or.inr (Or.inl ⟨rfl, h1⟩)
    · exact Or.inr (Or.inr ⟨rfl, h2⟩)
    · exact Or.inl rfl
  have heq : minDuration ≤ now - t → now - t ≤ maxDuration → Since now t = now - t := by
    intro h1 h2
    rcases hsat with h | ⟨_, h⟩ | ⟨_, h⟩
    · exact h
    · omega
    · omega
  have c1 : now - t < Minute → formatAge Parse now Format createdAt = "just now" := by
    intro h
    apply b1
    rcases hsat with h' | ⟨h', _⟩ | ⟨_, h'⟩
    · rw [h']; exact h
    · rw [h', hlo, hM]; decide
    · rw [hM] at h; rw [hhi] at h'; omega
  have c2 : Minute ≤ now - t → now - t < Hour →
      formatAge Parse now Format createdAt
        = sprintD ((now - t) / Minute)
          ++ (if (now - t) / Minute = 1 then " min ago" else " mins ago") := by
    intro h1 h2
    have hd := heq (by rw [hlo]; rw [hM] at h1; omega) (by rw [hhi]; rw [hH] at h2; omega)
    have := b2 (by rw [hd]; exact h1) (by rw [hd]; exact h2)
    rw [hd] at this
    exact this
  have c4 : (now - t) / (24 * Hour) = 1 →
      formatAge Parse now Format createdAt = "yesterday" := by
    intro h
    rw [hH] at h
    have hd := heq (by rw [hlo]; omega) (by rw [hhi]; omega)
    exact b4 (by rw [hd, hH]; exact h)
  refine ⟨c1, c2, ?_, c4, ?_, ?_, ?_, ?_, ?_, ?_⟩
  · intro h1 h2
    have hd := heq (by rw [hlo]; rw [hH] at h1; omega) (by rw [hhi]; rw [hH] at h2; omega)
    have := b3 (by rw [hd]; exact h1) (by rw [hd]; exact h2)
    rw [hd] at this
    exact this
  · intro h1 h2
    rw [hH] at h1 h2
    have hd := heq (by rw [hlo]; omega) (by rw [hhi]; omega)
    have := b5 (by rw [hd, hH]; exact h1) (by rw [hd, hH]; exact h2)
    rw [hd] at this
    exact this
  · intro h
    apply b6
    rw [hH] at h ⊢
    rcases hsat with h' | ⟨_, h'⟩ | ⟨h', _⟩
    · rw [h']; exact h
    · rw [hlo] at h'; omega
    · rw [h', hhi]; decide
  · intro h
    exact c1 (by rw [h]; decide)
  · intro h
    rw [c2 (by rw [h]; decide) (by rw [h]; decide), h]
    decide
  · intro h
    rw [c2 (by rw [h]; decide) (by rw [h]; decide), h]
    decide
  · intro h
    exact c4 (by rw [h]; decide)

theorem C10_age_buckets_witness :
    formatAge (fun _ => some 1704164645000000000) (1704164645000000000 + 26 * Hour)
        (fun _ => "Jan 2") "2024-01-02 03:04:05"
      = "yesterday" :=
  (C10_age_buckets (fun _ => some 1704164645000000000) (1704164645000000000 + 26 * Hour)
    (fun _ => "Jan 2") "2024-01-02 03:04:05" 1704164645000000000 rfl).2.2.2.1 (by decide)

end Jot
